import Mathlib

/-!
# Verification of `sage.matroids.graphic_matroid`

A shallow embedding of the graphic-matroid engine of
`src/sage/matroids/graphic_matroid.py`.  A labeled multigraph is a list of
edges `(u, v, label)` over `Nat` vertices and `Nat` labels.  The rank of an
edge set is `|spanned vertices| - number of components`, computed — as in
`GraphicMatroid._rank` — by a union-find (disjoint-set) pass over the spanned
vertices.  External Sage library routines (DisjointSet, Graph connectivity
queries) are modelled by executable Lean functions with the behaviour the
library documents.
-/

/-- An edge of a labeled multigraph: first endpoint, second endpoint, label. -/
abbrev Edge := Nat × Nat × Nat

/-- First endpoint of an edge. -/
def fstV (e : Edge) : Nat := e.1

/-- Second endpoint of an edge. -/
def sndV (e : Edge) : Nat := e.2.1

/-- Label of an edge (the ground-set element it carries). -/
def lab (e : Edge) : Nat := e.2.2

/-- The vertices spanned by an edge list: `set([u ...]).union(set([v ...]))`
in `_rank`, realised as a deduplicated list. -/
def vertsD (E : List Edge) : List Nat := (E.map fstV ++ E.map sndV).dedup

theorem vertsD_nodup (E : List Edge) : (vertsD E).Nodup := List.nodup_dedup _

theorem mem_vertsD {E : List Edge} {w : Nat} :
    w ∈ vertsD E ↔ ∃ e ∈ E, fstV e = w ∨ sndV e = w := by
  simp only [vertsD, List.mem_dedup, List.mem_append, List.mem_map]
  constructor
  · rintro (⟨e, he, h⟩ | ⟨e, he, h⟩)
    · exact ⟨e, he, Or.inl h⟩
    · exact ⟨e, he, Or.inr h⟩
  · rintro ⟨e, he, h | h⟩
    · exact Or.inl ⟨e, he, h⟩
    · exact Or.inr ⟨e, he, h⟩

theorem fstV_mem_vertsD {E : List Edge} {e : Edge} (he : e ∈ E) : fstV e ∈ vertsD E :=
  mem_vertsD.2 ⟨e, he, Or.inl rfl⟩

theorem sndV_mem_vertsD {E : List Edge} {e : Edge} (he : e ∈ E) : sndV e ∈ vertsD E :=
  mem_vertsD.2 ⟨e, he, Or.inr rfl⟩

/-- Two vertices are adjacent when some edge of the list joins them
(in either orientation). -/
def adjacent (E : List Edge) (u v : Nat) : Bool :=
  E.any (fun e => (fstV e == u && sndV e == v) || (fstV e == v && sndV e == u))

theorem adjacent_iff {E : List Edge} {u v : Nat} :
    adjacent E u v = true ↔ ∃ e ∈ E, (fstV e = u ∧ sndV e = v) ∨ (fstV e = v ∧ sndV e = u) := by
  simp [adjacent, List.any_eq_true]

theorem adjacent_comm (E : List Edge) (u v : Nat) : adjacent E u v = adjacent E v u := by
  rcases h1 : adjacent E u v with _ | _ <;> rcases h2 : adjacent E v u with _ | _ <;> try rfl
  · obtain ⟨e, he, h⟩ := adjacent_iff.1 h2
    have : adjacent E u v = true := adjacent_iff.2 ⟨e, he, h.symm⟩
    rw [h1] at this; exact absurd this (by simp)
  · obtain ⟨e, he, h⟩ := adjacent_iff.1 h1
    have : adjacent E v u = true := adjacent_iff.2 ⟨e, he, h.symm⟩
    rw [h2] at this; exact absurd this (by simp)

theorem adjacent_mono {E E' : List Edge} (hsub : ∀ e ∈ E, e ∈ E') {u v : Nat}
    (h : adjacent E u v = true) : adjacent E' u v = true := by
  obtain ⟨e, he, hh⟩ := adjacent_iff.1 h
  exact adjacent_iff.2 ⟨e, hsub e he, hh⟩

theorem mem_vertsD_of_adjacent {E : List Edge} {u v : Nat} (h : adjacent E u v = true) :
    u ∈ vertsD E ∧ v ∈ vertsD E := by
  obtain ⟨e, he, hh⟩ := adjacent_iff.1 h
  rcases hh with ⟨h1, h2⟩ | ⟨h1, h2⟩
  · exact ⟨h1 ▸ fstV_mem_vertsD he, h2 ▸ sndV_mem_vertsD he⟩
  · exact ⟨h2 ▸ sndV_mem_vertsD he, h1 ▸ fstV_mem_vertsD he⟩

/-- Connectivity of two vertices through the edges of `E`: the
reflexive-transitive closure of adjacency. -/
def Reach (E : List Edge) : Nat → Nat → Prop :=
  Relation.ReflTransGen (fun a b => adjacent E a b = true)

theorem Reach.rfl' {E : List Edge} {u : Nat} : Reach E u u := Relation.ReflTransGen.refl

theorem Reach.single {E : List Edge} {u v : Nat} (h : adjacent E u v = true) : Reach E u v :=
  Relation.ReflTransGen.single h

theorem Reach.trans' {E : List Edge} {u v w : Nat} (h1 : Reach E u v) (h2 : Reach E v w) :
    Reach E u w := Relation.ReflTransGen.trans h1 h2

theorem Reach.symm' {E : List Edge} {u v : Nat} (h : Reach E u v) : Reach E v u :=
  Relation.ReflTransGen.symmetric (fun a b hab => by rwa [adjacent_comm]) h

theorem Reach.tail' {E : List Edge} {u v w : Nat} (h1 : Reach E u v)
    (h2 : adjacent E v w = true) : Reach E u w := Relation.ReflTransGen.tail h1 h2

theorem reach_mono {E E' : List Edge} (hsub : ∀ e ∈ E, e ∈ E') {u v : Nat}
    (h : Reach E u v) : Reach E' u v :=
  Relation.ReflTransGen.mono (fun a b hab => adjacent_mono hsub hab) h

theorem reach_of_mem_iff {E E' : List Edge} (hiff : ∀ e, e ∈ E ↔ e ∈ E') {u v : Nat} :
    Reach E u v ↔ Reach E' u v :=
  ⟨reach_mono (fun e he => (hiff e).1 he), reach_mono (fun e he => (hiff e).2 he)⟩

theorem reach_src_cases {E : List Edge} {u v : Nat} (h : Reach E u v) :
    u = v ∨ (u ∈ vertsD E ∧ v ∈ vertsD E) := by
  induction h with
  | refl => exact Or.inl rfl
  | tail _ hadj ih =>
    rcases ih with rfl | ⟨h1, _⟩
    · exact Or.inr (mem_vertsD_of_adjacent hadj)
    · exact Or.inr ⟨h1, (mem_vertsD_of_adjacent hadj).2⟩

theorem adjacent_append_iff {E : List Edge} {e : Edge} {x y : Nat} :
    adjacent (E ++ [e]) x y = true ↔
      adjacent E x y = true ∨ (fstV e = x ∧ sndV e = y) ∨ (fstV e = y ∧ sndV e = x) := by
  constructor
  · intro h
    obtain ⟨e', he', hh⟩ := adjacent_iff.1 h
    rcases List.mem_append.1 he' with h1 | h1
    · exact Or.inl (adjacent_iff.2 ⟨e', h1, hh⟩)
    · have : e' = e := by simpa using h1
      subst this
      exact Or.inr hh
  · rintro (h | h)
    · exact adjacent_mono (fun a ha => List.mem_append.2 (Or.inl ha)) h
    · exact adjacent_iff.2 ⟨e, List.mem_append.2 (Or.inr (by simp)), h⟩

/-- Extending an edge list by one edge extends reachability in exactly the
expected way: a new connection must route through the new edge. -/
theorem reach_append {E : List Edge} {e : Edge} {x y : Nat} :
    Reach (E ++ [e]) x y ↔
      Reach E x y ∨ (Reach E x (fstV e) ∧ Reach E (sndV e) y) ∨
        (Reach E x (sndV e) ∧ Reach E (fstV e) y) := by
  constructor
  · intro h
    induction h with
    | refl => exact Or.inl Reach.rfl'
    | tail _ hadj ih =>
      rcases adjacent_append_iff.1 hadj with ha | ⟨h1, h2⟩ | ⟨h1, h2⟩
      · rcases ih with h0 | ⟨h1, h2⟩ | ⟨h1, h2⟩
        · exact Or.inl (h0.tail' ha)
        · exact Or.inr (Or.inl ⟨h1, h2.tail' ha⟩)
        · exact Or.inr (Or.inr ⟨h1, h2.tail' ha⟩)
      · subst h1; subst h2
        rcases ih with h0 | ⟨h1, h2⟩ | ⟨h1, h2⟩
        · exact Or.inr (Or.inl ⟨h0, Reach.rfl'⟩)
        · exact Or.inr (Or.inl ⟨h1, Reach.rfl'⟩)
        · exact Or.inl h1
      · subst h1; subst h2
        rcases ih with h0 | ⟨h1, h2⟩ | ⟨h1, h2⟩
        · exact Or.inr (Or.inr ⟨h0, Reach.rfl'⟩)
        · exact Or.inl h1
        · exact Or.inr (Or.inr ⟨h1, Reach.rfl'⟩)
  · have hsub : ∀ a ∈ E, a ∈ E ++ [e] := fun a ha => List.mem_append.2 (Or.inl ha)
    have hadj : adjacent (E ++ [e]) (fstV e) (sndV e) = true :=
      adjacent_iff.2 ⟨e, List.mem_append.2 (Or.inr (by simp)), Or.inl ⟨rfl, rfl⟩⟩
    rintro (h | ⟨h1, h2⟩ | ⟨h1, h2⟩)
    · exact reach_mono hsub h
    · exact ((reach_mono hsub h1).tail' hadj).trans' (reach_mono hsub h2)
    · exact ((reach_mono hsub h1).tail' (by rwa [adjacent_comm])).trans' (reach_mono hsub h2)

/-- One breadth-first expansion step: add every spanned vertex adjacent to the
current set. -/
def expandR (E : List Edge) (S : List Nat) : List Nat :=
  S ++ (vertsD E).filter (fun v => !S.contains v && S.any (fun u => adjacent E u v))

/-- Iterated expansion with explicit fuel. -/
def iterExpand (E : List Edge) : Nat → List Nat → List Nat
  | 0, S => S
  | n + 1, S => iterExpand E n (expandR E S)

/-- Executable reachability test: breadth-first closure of `{u}` with fuel
`|vertices|`; models the connectivity queries of the external graph engine. -/
def reachB (E : List Edge) (u v : Nat) : Bool :=
  u == v || (iterExpand E (vertsD E).length [u]).contains v

theorem mem_expandR_self {E : List Edge} {S : List Nat} {x : Nat} (h : x ∈ S) :
    x ∈ expandR E S := List.mem_append.2 (Or.inl h)

theorem expandR_sound {E : List Edge} {S : List Nat} {u : Nat}
    (h : ∀ w ∈ S, Reach E u w) : ∀ w ∈ expandR E S, Reach E u w := by
  intro w hw
  rcases List.mem_append.1 hw with h1 | h1
  · exact h w h1
  · have h3 := List.of_mem_filter h1
    simp only [Bool.and_eq_true, Bool.not_eq_true', List.any_eq_true] at h3
    obtain ⟨-, a, ha, hadj⟩ := h3
    exact (h a ha).tail' hadj

theorem iterExpand_sound {E : List Edge} {u : Nat} :
    ∀ (n : Nat) (S : List Nat), (∀ w ∈ S, Reach E u w) →
      ∀ w ∈ iterExpand E n S, Reach E u w := by
  intro n
  induction n with
  | zero => intro S h w hw; exact h w hw
  | succ n ih => intro S h w hw; exact ih (expandR E S) (expandR_sound h) w hw

theorem iterExpand_mem_self {E : List Edge} {x : Nat} :
    ∀ (n : Nat) (S : List Nat), x ∈ S → x ∈ iterExpand E n S := by
  intro n
  induction n with
  | zero => intro S h; exact h
  | succ n ih => intro S h; exact ih _ (mem_expandR_self h)

theorem expandR_eq_of_fix {E : List Edge} {S : List Nat} (h : expandR E S = S) :
    ∀ n, iterExpand E n S = S := by
  intro n
  induction n with
  | zero => rfl
  | succ n ih => simpa [iterExpand, h] using ih

/-- A set closed under the expansion step is closed under adjacency. -/
theorem closed_of_expandR_fix {E : List Edge} {S : List Nat} (h : expandR E S = S) :
    ∀ a ∈ S, ∀ b, adjacent E a b = true → b ∈ S := by
  intro a ha b hadj
  by_contra hb
  have hbv : b ∈ vertsD E := (mem_vertsD_of_adjacent hadj).2
  have hmem : b ∈ (vertsD E).filter
      (fun v => !S.contains v && S.any (fun u => adjacent E u v)) := by
    refine List.mem_filter.2 ⟨hbv, ?_⟩
    simp only [Bool.and_eq_true, Bool.not_eq_true', List.any_eq_true]
    exact ⟨by simpa using hb, a, ha, hadj⟩
  have : b ∈ expandR E S := List.mem_append.2 (Or.inr hmem)
  rw [h] at this
  exact hb this

theorem nodup_expandR {E : List Edge} {S : List Nat} (h : S.Nodup) : (expandR E S).Nodup := by
  refine List.Nodup.append h ((vertsD_nodup E).filter _) ?_
  intro x hx hx2
  have h3 := List.of_mem_filter hx2
  simp only [Bool.and_eq_true, Bool.not_eq_true', List.any_eq_true] at h3
  exact absurd hx (by simpa using h3.1)

theorem expandR_subset_cons {E : List Edge} {u : Nat} {S : List Nat}
    (h : ∀ x ∈ S, x = u ∨ x ∈ vertsD E) : ∀ x ∈ expandR E S, x = u ∨ x ∈ vertsD E := by
  intro x hx
  rcases List.mem_append.1 hx with h1 | h1
  · exact h x h1
  · exact Or.inr (List.mem_of_mem_filter h1)

theorem nodup_length_le_of_subset {S T : List Nat} (hS : S.Nodup)
    (hsub : ∀ x ∈ S, x ∈ T) : S.length ≤ T.length := by
  calc S.length = S.toFinset.card := (List.toFinset_card_of_nodup hS).symm
  _ ≤ T.toFinset.card := Finset.card_le_card (fun x hx =>
      List.mem_toFinset.2 (hsub x (List.mem_toFinset.1 hx)))
  _ ≤ T.length := T.toFinset_card_le

/-- With enough fuel, iterated expansion reaches a set closed under adjacency. -/
theorem iterExpand_closed (E : List Edge) (u : Nat) :
    ∀ (n : Nat) (S : List Nat), S.Nodup → (∀ x ∈ S, x = u ∨ x ∈ vertsD E) →
      (vertsD E).length + 1 ≤ n + S.length →
      ∀ a ∈ iterExpand E n S, ∀ b, adjacent E a b = true → b ∈ iterExpand E n S := by
  intro n
  induction n with
  | zero =>
    intro S hnd hsub hlen a ha b hadj
    -- the set already contains every spanned vertex
    have hverts : ∀ v ∈ vertsD E, v ∈ S := by
      by_contra hv
      push_neg at hv
      obtain ⟨v, hv1, hv2⟩ := hv
      have hub : S.length ≤ ((vertsD E).erase v).length + 1 := by
        have hxx : ∀ x ∈ S, x ∈ u :: (vertsD E).erase v := by
          intro x hx
          rcases hsub x hx with rfl | hx2
          · exact List.mem_cons_self _ _
          · refine List.mem_cons_of_mem _ (List.mem_erase_of_ne ?_ |>.2 hx2)
            rintro rfl; exact hv2 hx
        simpa using nodup_length_le_of_subset hnd hxx
      have hpos : 0 < (vertsD E).length := List.length_pos_of_mem hv1
      have hlt : ((vertsD E).erase v).length = (vertsD E).length - 1 :=
        List.length_erase_of_mem hv1
      omega
    exact hverts b (mem_vertsD_of_adjacent hadj).2
  | succ n ih =>
    intro S hnd hsub hlen a ha b hadj
    by_cases hfix : expandR E S = S
    · have hiter : iterExpand E (n + 1) S = S := expandR_eq_of_fix hfix (n + 1)
      rw [hiter] at ha ⊢
      exact closed_of_expandR_fix hfix a ha b hadj
    · have hgrow : S.length + 1 ≤ (expandR E S).length := by
        have hne : (vertsD E).filter
            (fun v => !S.contains v && S.any (fun w => adjacent E w v)) ≠ [] := by
          intro hnil
          exact hfix (by unfold expandR; rw [hnil, List.append_nil])
        have hpos := List.length_pos.2 hne
        rw [expandR, List.length_append]
        omega
      have := ih (expandR E S) (nodup_expandR hnd) (expandR_subset_cons hsub) (by omega)
      exact this a ha b hadj

theorem reachB_complete {E : List Edge} {u v : Nat} (h : Reach E u v) : reachB E u v = true := by
  rcases eq_or_ne u v with rfl | hne
  · simp [reachB]
  · have hcl := iterExpand_closed E u (vertsD E).length [u]
      (by simp) (by intro x hx; simp at hx; exact Or.inl hx) (by simp)
    have hu : u ∈ iterExpand E (vertsD E).length [u] := iterExpand_mem_self _ _ (by simp)
    have hmem : v ∈ iterExpand E (vertsD E).length [u] := by
      clear hne
      induction h with
      | refl => exact hu
      | tail hr hadj ih => exact hcl _ ih _ hadj
    simp [reachB, hmem]

theorem reachB_sound {E : List Edge} {u v : Nat} (h : reachB E u v = true) : Reach E u v := by
  have h' : u = v ∨ v ∈ iterExpand E (vertsD E).length [u] := by
    simpa [reachB] using h
  rcases h' with rfl | hv
  · exact Reach.rfl'
  · refine iterExpand_sound _ _ ?_ v hv
    intro w hw
    simp at hw
    subst hw
    exact Reach.rfl'

theorem reachB_iff {E : List Edge} {u v : Nat} : reachB E u v = true ↔ Reach E u v :=
  ⟨reachB_sound, reachB_complete⟩

instance (E : List Edge) (u v : Nat) : Decidable (Reach E u v) :=
  decidable_of_iff _ reachB_iff

/-! ## The disjoint-set structure

`_rank` computes `len(vertices) - DS_vertices.number_of_subsets()` where
`DS_vertices` is Sage's `DisjointSet` over the spanned vertices, unioned along
every edge.  We model the disjoint-set structure as a list of blocks. -/

/-- Union the blocks containing `u` and `v` (a no-op when they already share
a block): models `DisjointSet.union`. -/
def dsUnion (P : List (List Nat)) (u v : Nat) : List (List Nat) :=
  if P.any (fun b => b.contains u && b.contains v) then P
  else (P.filter (fun b => b.contains u || b.contains v)).flatten ::
       P.filter (fun b => !(b.contains u || b.contains v))

/-- The discrete partition on a vertex list: models `DisjointSet(vertices)`. -/
def dsInit (V : List Nat) : List (List Nat) := V.map (fun v => [v])

/-- Union along every edge: models `for (u, v, l) in edges: DS_vertices.union(u, v)`. -/
def dsFold (E : List Edge) (P : List (List Nat)) : List (List Nat) :=
  E.foldl (fun Q e => dsUnion Q (fstV e) (sndV e)) P

/-- Two elements lie in a common block of the partition. -/
def SameBlock (P : List (List Nat)) (u v : Nat) : Prop := ∃ b ∈ P, u ∈ b ∧ v ∈ b

/-- A well-formed partition: nonempty pairwise-disjoint blocks (expressed as:
the concatenation of the blocks has no duplicates). -/
def PartGood (P : List (List Nat)) : Prop := (∀ b ∈ P, b ≠ []) ∧ P.flatten.Nodup

theorem SameBlock.symm2 {P : List (List Nat)} {u v : Nat} (h : SameBlock P u v) :
    SameBlock P v u := by obtain ⟨b, hb, h1, h2⟩ := h; exact ⟨b, hb, h2, h1⟩

theorem block_unique {P : List (List Nat)} (hP : PartGood P) :
    ∀ b1 ∈ P, ∀ b2 ∈ P, ∀ u : Nat, u ∈ b1 → u ∈ b2 → b1 = b2 := by
  obtain ⟨-, hnd⟩ := hP
  induction P with
  | nil => intro b1 hb1; exact absurd hb1 (List.not_mem_nil _)
  | cons c P ih =>
    rw [List.flatten_cons] at hnd
    have hdisj := List.disjoint_of_nodup_append hnd
    have hnd2 := (List.nodup_append.1 hnd).2.1
    intro b1 hb1 b2 hb2 u hu1 hu2
    rcases List.mem_cons.1 hb1 with rfl | hb1' <;> rcases List.mem_cons.1 hb2 with rfl | hb2'
    · rfl
    · exact absurd (List.mem_flatten.2 ⟨b2, hb2', hu2⟩) (fun hmem => hdisj hu1 hmem)
    · exact absurd (List.mem_flatten.2 ⟨b1, hb1', hu1⟩) (fun hmem => hdisj hu2 hmem)
    · exact ih hnd2 b1 hb1' b2 hb2' u hu1 hu2

theorem sameBlock_trans {P : List (List Nat)} (hP : PartGood P) {x u y : Nat}
    (h1 : SameBlock P x u) (h2 : SameBlock P u y) : SameBlock P x y := by
  obtain ⟨b1, hb1, hx, hu1⟩ := h1
  obtain ⟨b2, hb2, hu2, hy⟩ := h2
  have : b1 = b2 := block_unique hP b1 hb1 b2 hb2 u hu1 hu2
  subst this
  exact ⟨b1, hb1, hx, hy⟩

theorem sameBlock_self_iff {P : List (List Nat)} {x : Nat} :
    SameBlock P x x ↔ x ∈ P.flatten := by
  constructor
  · rintro ⟨b, hb, hx, -⟩; exact List.mem_flatten.2 ⟨b, hb, hx⟩
  · intro h; obtain ⟨b, hb, hx⟩ := List.mem_flatten.1 h; exact ⟨b, hb, hx, hx⟩

theorem sameBlock_left_mem {P : List (List Nat)} {x y : Nat} (h : SameBlock P x y) :
    x ∈ P.flatten := by
  obtain ⟨b, hb, hx, -⟩ := h; exact List.mem_flatten.2 ⟨b, hb, hx⟩

theorem countP_contains_eq_one :
    ∀ (P : List (List Nat)), P.flatten.Nodup → ∀ u : Nat, u ∈ P.flatten →
      P.countP (fun b => b.contains u) = 1 := by
  intro P
  induction P with
  | nil => intro _ u hu; simp at hu
  | cons c P ih =>
    intro hnd u hu
    rw [List.flatten_cons] at hnd hu
    have hdisj := List.disjoint_of_nodup_append hnd
    have hnd2 := (List.nodup_append.1 hnd).2.1
    rcases List.mem_append.1 hu with hc | hrest
    · have h0 : P.countP (fun b => b.contains u) = 0 := by
        rw [List.countP_eq_zero]
        intro b hb hcont
        exact hdisj hc (List.mem_flatten.2 ⟨b, hb, by simpa using hcont⟩)
      rw [List.countP_cons_of_pos _ _ (by simpa using hc), h0]
    · have h1 : P.countP (fun b => b.contains u) = 1 := ih hnd2 u hrest
      have hc : ¬(u ∈ c) := fun hcm => hdisj hcm hrest
      rw [List.countP_cons_of_neg _ _ (by simpa using hc), h1]

theorem countP_or_split {P : List (List Nat)} {u v : Nat}
    (h : ∀ b ∈ P, ¬(b.contains u = true ∧ b.contains v = true)) :
    P.countP (fun b => b.contains u || b.contains v) =
      P.countP (fun b => b.contains u) + P.countP (fun b => b.contains v) := by
  induction P with
  | nil => rfl
  | cons c P ih =>
    have hc := h c (List.mem_cons_self _ _)
    have ih' := ih (fun b hb => h b (List.mem_cons_of_mem _ hb))
    rcases h1 : c.contains u with _ | _ <;> rcases h2 : c.contains v with _ | _
    · rw [List.countP_cons_of_neg _ _ (by simp only [h1, h2] <;> simp),
        List.countP_cons_of_neg _ _ (by simp only [h1] <;> simp),
        List.countP_cons_of_neg _ _ (by simp only [h2] <;> simp), ih']
    · rw [List.countP_cons_of_pos _ _ (by simp only [h1, h2] <;> simp),
        List.countP_cons_of_neg _ _ (by simp only [h1] <;> simp),
        List.countP_cons_of_pos _ _ (by simp only [h2] <;> simp), ih']
      omega
    · rw [List.countP_cons_of_pos _ _ (by simp only [h1, h2] <;> simp),
        List.countP_cons_of_pos _ _ (by simp only [h1] <;> simp),
        List.countP_cons_of_neg _ _ (by simp only [h2] <;> simp), ih']
      omega
    · exact absurd ⟨h1, h2⟩ hc

theorem filter_pos_neg_length {α : Type} (p : α → Bool) (l : List α) :
    (l.filter p).length + (l.filter (fun a => !p a)).length = l.length := by
  have := (l.filter_append_perm p).length_eq
  simpa [List.length_append] using this

theorem flatten_mem_filter_pos {P : List (List Nat)} {u : Nat} (hu : u ∈ P.flatten)
    {p : List Nat → Bool} (hp : ∀ b ∈ P, u ∈ b → p b = true) :
    u ∈ (P.filter p).flatten := by
  obtain ⟨b, hb, hub⟩ := List.mem_flatten.1 hu
  exact List.mem_flatten.2 ⟨b, List.mem_filter.2 ⟨hb, hp b hb hub⟩, hub⟩

theorem reach_nil {x y : Nat} : Reach [] x y ↔ x = y := by
  constructor
  · intro h
    induction h with
    | refl => rfl
    | tail _ hadj ih => simp [adjacent] at hadj
  · rintro rfl; exact Reach.rfl'

theorem dsUnion_cond_iff {P : List (List Nat)} {u v : Nat} :
    (P.any (fun b => b.contains u && b.contains v) = true) ↔ SameBlock P u v := by
  simp [SameBlock, List.any_eq_true]

theorem dsUnion_pos {P : List (List Nat)} {u v : Nat} (h : SameBlock P u v) :
    dsUnion P u v = P := by
  unfold dsUnion
  rw [if_pos (dsUnion_cond_iff.2 h)]

theorem dsUnion_neg {P : List (List Nat)} {u v : Nat} (h : ¬ SameBlock P u v) :
    dsUnion P u v = (P.filter (fun b => b.contains u || b.contains v)).flatten ::
      P.filter (fun b => !(b.contains u || b.contains v)) := by
  unfold dsUnion
  rw [if_neg (fun hc => h (dsUnion_cond_iff.1 hc))]

theorem dsUnion_flatten_perm (P : List (List Nat)) (u v : Nat) :
    List.Perm (dsUnion P u v).flatten P.flatten := by
  by_cases h : SameBlock P u v
  · rw [dsUnion_pos h]
  · rw [dsUnion_neg h, List.flatten_cons, ← List.flatten_append]
    exact (List.filter_append_perm _ P).flatten

theorem mem_flatten_filter_or {P : List (List Nat)} (hP : PartGood P) {u v z : Nat} :
    z ∈ (P.filter (fun b => b.contains u || b.contains v)).flatten ↔
      SameBlock P z u ∨ SameBlock P z v := by
  rw [List.mem_flatten]
  constructor
  · rintro ⟨b, hb, hz⟩
    obtain ⟨hbP, hcond⟩ := List.mem_filter.1 hb
    rcases Bool.or_eq_true _ _ |>.mp hcond with hcu | hcv
    · exact Or.inl ⟨b, hbP, hz, by simpa using hcu⟩
    · exact Or.inr ⟨b, hbP, hz, by simpa using hcv⟩
  · rintro (⟨b, hb, hz, hu⟩ | ⟨b, hb, hz, hv⟩)
    · refine ⟨b, List.mem_filter.2 ⟨hb, ?_⟩, hz⟩
      simp only [Bool.or_eq_true, List.elem_iff]
      exact Or.inl hu
    · refine ⟨b, List.mem_filter.2 ⟨hb, ?_⟩, hz⟩
      simp only [Bool.or_eq_true, List.elem_iff]
      exact Or.inr hv

theorem dsUnion_partGood {P : List (List Nat)} (hP : PartGood P) {u v : Nat}
    (hu : u ∈ P.flatten) : PartGood (dsUnion P u v) := by
  by_cases h : SameBlock P u v
  · rwa [dsUnion_pos h]
  · rw [dsUnion_neg h]
    constructor
    · intro b hb
      rcases List.mem_cons.1 hb with rfl | hb'
      · intro hnil
        have : u ∈ (P.filter (fun b => b.contains u || b.contains v)).flatten :=
          (mem_flatten_filter_or hP).2 (Or.inl (sameBlock_self_iff.2 hu))
        rw [hnil] at this
        exact List.not_mem_nil _ this
      · exact hP.1 b (List.mem_of_mem_filter hb')
    · have := (dsUnion_flatten_perm P u v).nodup_iff.2 hP.2
      rwa [dsUnion_neg h] at this

theorem sameBlock_dsUnion {P : List (List Nat)} (hP : PartGood P) {u v : Nat}
    (hu : u ∈ P.flatten) (hv : v ∈ P.flatten) (x y : Nat) :
    SameBlock (dsUnion P u v) x y ↔
      SameBlock P x y ∨ (SameBlock P x u ∧ SameBlock P v y) ∨
        (SameBlock P x v ∧ SameBlock P u y) := by
  by_cases h : SameBlock P u v
  · rw [dsUnion_pos h]
    constructor
    · exact Or.inl
    · rintro (h0 | ⟨h1, h2⟩ | ⟨h1, h2⟩)
      · exact h0
      · exact sameBlock_trans hP (sameBlock_trans hP h1 h) h2
      · exact sameBlock_trans hP (sameBlock_trans hP h1 h.symm2) h2
  · rw [dsUnion_neg h]
    constructor
    · rintro ⟨b, hb, hx, hy⟩
      rcases List.mem_cons.1 hb with rfl | hb'
      · rcases (mem_flatten_filter_or hP).1 hx with hxu | hxv <;>
          rcases (mem_flatten_filter_or hP).1 hy with hyu | hyv
        · exact Or.inl (sameBlock_trans hP hxu hyu.symm2)
        · exact Or.inr (Or.inl ⟨hxu, hyv.symm2⟩)
        · exact Or.inr (Or.inr ⟨hxv, hyu.symm2⟩)
        · exact Or.inl (sameBlock_trans hP hxv hyv.symm2)
      · exact Or.inl ⟨b, List.mem_of_mem_filter hb', hx, hy⟩
    · have hmem : ∀ z w : Nat, SameBlock P z u ∨ SameBlock P z v →
          SameBlock P w u ∨ SameBlock P w v →
          SameBlock (dsUnion P u v) z w := by
        intro z w hz hw
        rw [dsUnion_neg h]
        exact ⟨_, List.mem_cons_self _ _,
          (mem_flatten_filter_or hP).2 hz, (mem_flatten_filter_or hP).2 hw⟩
      rw [← dsUnion_neg h]
      rintro (h0 | ⟨h1, h2⟩ | ⟨h1, h2⟩)
      · obtain ⟨b, hb, hx, hy⟩ := h0
        by_cases hbu : u ∈ b ∨ v ∈ b
        · refine hmem x y ?_ ?_
          · rcases hbu with h3 | h3
            · exact Or.inl ⟨b, hb, hx, h3⟩
            · exact Or.inr ⟨b, hb, hx, h3⟩
          · rcases hbu with h3 | h3
            · exact Or.inl ⟨b, hb, hy, h3⟩
            · exact Or.inr ⟨b, hb, hy, h3⟩
        · push_neg at hbu
          rw [dsUnion_neg h]
          refine ⟨b, List.mem_cons_of_mem _ (List.mem_filter.2 ⟨hb, ?_⟩), hx, hy⟩
          simp only [Bool.not_eq_true', Bool.or_eq_false_iff]
          constructor <;> simp [List.elem_iff, hbu.1, hbu.2]
      · exact hmem x y (Or.inl h1) (Or.inr h2.symm2)
      · exact hmem x y (Or.inr h1) (Or.inl h2.symm2)

theorem dsUnion_length_of_sep {P : List (List Nat)} (hP : PartGood P) {u v : Nat}
    (hu : u ∈ P.flatten) (hv : v ∈ P.flatten) (h : ¬ SameBlock P u v) :
    (dsUnion P u v).length + 1 = P.length := by
  rw [dsUnion_neg h]
  have hsplit := filter_pos_neg_length (fun b => b.contains u || b.contains v) P
  have hpos : (P.filter (fun b => b.contains u || b.contains v)).length = 2 := by
    rw [← List.countP_eq_length_filter]
    have hnb : ∀ b ∈ P, ¬(b.contains u = true ∧ b.contains v = true) := by
      intro b hb ⟨h1, h2⟩
      exact h ⟨b, hb, by simpa [List.elem_iff] using h1, by simpa [List.elem_iff] using h2⟩
    rw [countP_or_split hnb, countP_contains_eq_one P hP.2 u hu,
      countP_contains_eq_one P hP.2 v hv]
  simp only [List.length_cons]
  omega

theorem dsInit_flatten (V : List Nat) : (dsInit V).flatten = V := by
  induction V with
  | nil => rfl
  | cons v V ih => simp [dsInit, List.flatten_cons] at ih ⊢; exact ih

theorem dsInit_partGood {V : List Nat} (h : V.Nodup) : PartGood (dsInit V) := by
  constructor
  · intro b hb
    obtain ⟨v, -, rfl⟩ := List.mem_map.1 hb
    simp
  · rwa [dsInit_flatten]

theorem dsInit_sameBlock {V : List Nat} {x y : Nat} :
    SameBlock (dsInit V) x y ↔ x ∈ V ∧ x = y := by
  constructor
  · rintro ⟨b, hb, hx, hy⟩
    obtain ⟨v, hv, rfl⟩ := List.mem_map.1 hb
    simp at hx hy
    subst hx; subst hy
    exact ⟨hv, rfl⟩
  · rintro ⟨hx, rfl⟩
    exact ⟨[x], List.mem_map.2 ⟨x, hx, rfl⟩, by simp, by simp⟩

theorem dsFold_append (E : List Edge) (e : Edge) (P : List (List Nat)) :
    dsFold (E ++ [e]) P = dsUnion (dsFold E P) (fstV e) (sndV e) := by
  unfold dsFold
  rw [List.foldl_append]
  rfl

/-- The disjoint-set fold computes exactly the connectivity relation of the
edge list: after all unions, two vertices share a block iff they are both in
`V` and connected by a path. -/
theorem dsFold_invariant (E : List Edge) (V : List Nat) (hnd : V.Nodup)
    (hE : ∀ e ∈ E, fstV e ∈ V ∧ sndV e ∈ V) :
    PartGood (dsFold E (dsInit V)) ∧
      List.Perm (dsFold E (dsInit V)).flatten V ∧
      ∀ x y, (SameBlock (dsFold E (dsInit V)) x y ↔ x ∈ V ∧ y ∈ V ∧ Reach E x y) := by
  induction E using List.reverseRecOn with
  | nil =>
    have hfold : dsFold [] (dsInit V) = dsInit V := rfl
    rw [hfold]
    refine ⟨dsInit_partGood hnd, by rw [dsInit_flatten], fun x y => ?_⟩
    rw [dsInit_sameBlock, reach_nil]
    constructor
    · rintro ⟨h1, rfl⟩; exact ⟨h1, h1, rfl⟩
    · rintro ⟨h1, -, rfl⟩; exact ⟨h1, rfl⟩
  | append_singleton E e ih =>
    obtain ⟨hu, hv⟩ := hE e (by simp)
    obtain ⟨hPG, hperm, hch⟩ := ih (fun a ha => hE a (by simp [ha]))
    have hu' : fstV e ∈ (dsFold E (dsInit V)).flatten := hperm.mem_iff.2 hu
    have hv' : sndV e ∈ (dsFold E (dsInit V)).flatten := hperm.mem_iff.2 hv
    rw [dsFold_append]
    refine ⟨dsUnion_partGood hPG hu', ((dsUnion_flatten_perm _ _ _).trans hperm), fun x y => ?_⟩
    rw [sameBlock_dsUnion hPG hu' hv']
    simp only [hch, reach_append]
    constructor
    · rintro (⟨h1, h2, h3⟩ | ⟨⟨h1, h2, h3⟩, ⟨h4, h5, h6⟩⟩ | ⟨⟨h1, h2, h3⟩, ⟨h4, h5, h6⟩⟩)
      · exact ⟨h1, h2, Or.inl h3⟩
      · exact ⟨h1, h5, Or.inr (Or.inl ⟨h3, h6⟩)⟩
      · exact ⟨h1, h5, Or.inr (Or.inr ⟨h3, h6⟩)⟩
    · rintro ⟨h1, h2, h3 | ⟨h3, h4⟩ | ⟨h3, h4⟩⟩
      · exact Or.inl ⟨h1, h2, h3⟩
      · exact Or.inr (Or.inl ⟨⟨h1, hu, h3⟩, ⟨hv, h2, h4⟩⟩)
      · exact Or.inr (Or.inr ⟨⟨h1, hv, h3⟩, ⟨hu, h2, h4⟩⟩)

/-- `number_of_subsets()` of the disjoint-set structure over the vertex list
`V` after unioning along every edge of `E`. -/
def ncompFrom (E : List Edge) (V : List Nat) : Nat := (dsFold E (dsInit V)).length

/-- The number of connected components of the multigraph given by `E`
(over its spanned vertices), as `_rank` computes it. -/
def ncomp (E : List Edge) : Nat := ncompFrom E (vertsD E)

/-- The rank of an edge list:
`len(vertices) - DS_vertices.number_of_subsets()` in `_rank`. -/
def rankE (E : List Edge) : Nat := (vertsD E).length - ncomp E

/-- The connectivity class of `v` inside the vertex set `W`. -/
def classFin (E : List Edge) (W : Finset Nat) (v : Nat) : Finset Nat :=
  W.filter (fun u => Reach E v u)

theorem mem_classFin {E : List Edge} {W : Finset Nat} {v z : Nat} :
    z ∈ classFin E W v ↔ z ∈ W ∧ Reach E v z := by
  simp [classFin]

theorem self_mem_classFin {E : List Edge} {W : Finset Nat} {v : Nat} (h : v ∈ W) :
    v ∈ classFin E W v := mem_classFin.2 ⟨h, Reach.rfl'⟩

theorem map_toFinset_nodup :
    ∀ (P : List (List Nat)), P.flatten.Nodup → (∀ b ∈ P, b ≠ []) →
      (P.map List.toFinset).Nodup := by
  intro P
  induction P with
  | nil => intro _ _; simp
  | cons c P ih =>
    intro hnd hne
    rw [List.flatten_cons] at hnd
    have hdisj := List.disjoint_of_nodup_append hnd
    have hnd2 := (List.nodup_append.1 hnd).2.1
    rw [List.map_cons, List.nodup_cons]
    constructor
    · intro hmem
      obtain ⟨b, hb, hbc⟩ := List.mem_map.1 hmem
      obtain ⟨z, hz⟩ := List.exists_mem_of_ne_nil c (hne c (List.mem_cons_self _ _))
      have hzb : z ∈ b := by
        have : z ∈ c.toFinset := List.mem_toFinset.2 hz
        rw [← hbc] at this
        exact List.mem_toFinset.1 this
      exact hdisj hz (List.mem_flatten.2 ⟨b, hb, hzb⟩)
    · exact ih hnd2 (fun b hb => hne b (List.mem_cons_of_mem _ hb))

/-- The number of disjoint-set blocks equals the number of connectivity
classes of the vertex set — a counting form of the fold invariant. -/
theorem ncompFrom_eq_card (E : List Edge) (V : List Nat) (hnd : V.Nodup)
    (hE : ∀ e ∈ E, fstV e ∈ V ∧ sndV e ∈ V) :
    ncompFrom E V = (V.toFinset.image (classFin E V.toFinset)).card := by
  obtain ⟨hPG, hperm, hch⟩ := dsFold_invariant E V hnd hE
  have hblock : ∀ b ∈ dsFold E (dsInit V), ∀ u ∈ b,
      b.toFinset = classFin E V.toFinset u := by
    intro b hb u hub
    have huV : u ∈ V := hperm.mem_iff.1 (List.mem_flatten.2 ⟨b, hb, hub⟩)
    ext z
    simp only [List.mem_toFinset, mem_classFin]
    constructor
    · intro hz
      obtain ⟨-, h3, h4⟩ := (hch u z).1 ⟨b, hb, hub, hz⟩
      exact ⟨h3, h4⟩
    · rintro ⟨hzW, hr⟩
      obtain ⟨b', hb', hub', hzb'⟩ := (hch u z).2 ⟨huV, hzW, hr⟩
      rwa [block_unique hPG b hb b' hb' u hub hub']
  have hmapnd : ((dsFold E (dsInit V)).map List.toFinset).Nodup :=
    map_toFinset_nodup _ hPG.2 hPG.1
  have hseteq : ((dsFold E (dsInit V)).map List.toFinset).toFinset
      = V.toFinset.image (classFin E V.toFinset) := by
    ext s
    simp only [List.mem_toFinset, List.mem_map, Finset.mem_image]
    constructor
    · rintro ⟨b, hb, rfl⟩
      obtain ⟨u, hu⟩ := List.exists_mem_of_ne_nil b (hPG.1 b hb)
      have huV : u ∈ V := hperm.mem_iff.1 (List.mem_flatten.2 ⟨b, hb, hu⟩)
      exact ⟨u, huV, (hblock b hb u hu).symm⟩
    · rintro ⟨v, hv, rfl⟩
      have hvfl : v ∈ (dsFold E (dsInit V)).flatten := hperm.mem_iff.2 hv
      obtain ⟨b, hb, hvb⟩ := List.mem_flatten.1 hvfl
      exact ⟨b, hb, hblock b hb v hvb⟩
  calc ncompFrom E V = ((dsFold E (dsInit V)).map List.toFinset).length := by
        rw [ncompFrom, List.length_map]
  _ = ((dsFold E (dsInit V)).map List.toFinset).toFinset.card :=
        (List.toFinset_card_of_nodup hmapnd).symm
  _ = (V.toFinset.image (classFin E V.toFinset)).card := by rw [hseteq]

theorem ncomp_eq_card (E : List Edge) :
    ncomp E = ((vertsD E).toFinset.image (classFin E (vertsD E).toFinset)).card :=
  ncompFrom_eq_card E (vertsD E) (vertsD_nodup E)
    (fun e he => ⟨fstV_mem_vertsD he, sndV_mem_vertsD he⟩)

theorem reach_eq_of_not_mem_verts {E : List Edge} {w z : Nat} (hw : w ∉ vertsD E)
    (h : Reach E w z) : w = z := by
  rcases reach_src_cases h with h1 | ⟨h1, -⟩
  · exact h1
  · exact absurd h1 hw

/-- Adding an isolated vertex to the vertex set adds exactly one
connectivity class. -/
theorem card_image_class_insert (E : List Edge) (W : Finset Nat) {w : Nat}
    (hw : w ∉ W) (hwE : w ∉ vertsD E) :
    ((insert w W).image (classFin E (insert w W))).card
      = (W.image (classFin E W)).card + 1 := by
  have hcw : classFin E (insert w W) w = {w} := by
    ext z
    simp only [mem_classFin, Finset.mem_insert, Finset.mem_singleton]
    constructor
    · rintro ⟨-, hr⟩
      exact (reach_eq_of_not_mem_verts hwE hr).symm
    · rintro rfl
      exact ⟨Or.inl rfl, Reach.rfl'⟩
  have hcv : ∀ v ∈ W, classFin E (insert w W) v = classFin E W v := by
    intro v hv
    ext z
    simp only [mem_classFin, Finset.mem_insert]
    constructor
    · rintro ⟨rfl | hzW, hr⟩
      · have h2 := reach_eq_of_not_mem_verts hwE hr.symm'
        subst h2
        exact absurd hv hw
      · exact ⟨hzW, hr⟩
    · rintro ⟨hzW, hr⟩
      exact ⟨Or.inr hzW, hr⟩
  rw [Finset.image_insert, hcw]
  have himg : W.image (classFin E (insert w W)) = W.image (classFin E W) :=
    Finset.image_congr (fun v hv => hcv v (by simpa using hv))
  rw [himg]
  rw [Finset.card_insert_of_not_mem]
  intro hmem
  obtain ⟨v, hv, hveq⟩ := Finset.mem_image.1 hmem
  have hself : v ∈ classFin E W v := self_mem_classFin hv
  rw [hveq] at hself
  have : v = w := by simpa using hself
  exact hw (this ▸ hv)

/-- Appending an edge whose endpoints already belong to the vertex set merges
the endpoint classes when they were distinct and changes nothing otherwise. -/
theorem card_image_class_append (E : List Edge) (e : Edge) (W : Finset Nat)
    (hx : fstV e ∈ W) (hy : sndV e ∈ W) :
    (W.image (classFin (E ++ [e]) W)).card
        + (if Reach E (fstV e) (sndV e) then 0 else 1)
      = (W.image (classFin E W)).card := by
  by_cases hr : Reach E (fstV e) (sndV e)
  · have hcl : ∀ v, classFin (E ++ [e]) W v = classFin E W v := by
      intro v
      ext z
      simp only [mem_classFin]
      rw [reach_append]
      constructor
      · rintro ⟨hz, h0 | ⟨h1, h2⟩ | ⟨h1, h2⟩⟩
        · exact ⟨hz, h0⟩
        · exact ⟨hz, h1.trans' (hr.trans' h2)⟩
        · exact ⟨hz, h1.trans' (hr.symm'.trans' h2)⟩
      · rintro ⟨hz, h0⟩
        exact ⟨hz, Or.inl h0⟩
    rw [if_pos hr]
    have himg : W.image (classFin (E ++ [e]) W) = W.image (classFin E W) :=
      Finset.image_congr (fun v _ => hcl v)
    rw [himg]
    omega
  · rw [if_neg hr]
    have hf1 : ∀ v, Reach E v (fstV e) → classFin E W v = classFin E W (fstV e) := by
      intro v hv
      ext z
      simp only [mem_classFin]
      exact ⟨fun ⟨hz, h0⟩ => ⟨hz, hv.symm'.trans' h0⟩, fun ⟨hz, h0⟩ => ⟨hz, hv.trans' h0⟩⟩
    have hf2 : ∀ v, Reach E v (sndV e) → classFin E W v = classFin E W (sndV e) := by
      intro v hv
      ext z
      simp only [mem_classFin]
      exact ⟨fun ⟨hz, h0⟩ => ⟨hz, hv.symm'.trans' h0⟩, fun ⟨hz, h0⟩ => ⟨hz, hv.trans' h0⟩⟩
    have hf3 : ∀ v, Reach E v (fstV e) ∨ Reach E v (sndV e) →
        classFin (E ++ [e]) W v = classFin E W (fstV e) ∪ classFin E W (sndV e) := by
      intro v hv
      ext z
      simp only [mem_classFin, Finset.mem_union]
      rw [reach_append]
      rcases hv with hvx | hvy
      · constructor
        · rintro ⟨hz, h0 | ⟨h1, h2⟩ | ⟨h1, h2⟩⟩
          · exact Or.inl ⟨hz, hvx.symm'.trans' h0⟩
          · exact Or.inr ⟨hz, h2⟩
          · exact absurd (hvx.symm'.trans' h1) hr
        · rintro (⟨hz, h0⟩ | ⟨hz, h0⟩)
          · exact ⟨hz, Or.inl (hvx.trans' h0)⟩
          · exact ⟨hz, Or.inr (Or.inl ⟨hvx, h0⟩)⟩
      · constructor
        · rintro ⟨hz, h0 | ⟨h1, h2⟩ | ⟨h1, h2⟩⟩
          · exact Or.inr ⟨hz, hvy.symm'.trans' h0⟩
          · exact absurd (hvy.symm'.trans' h1).symm' hr
          · exact Or.inl ⟨hz, h2⟩
        · rintro (⟨hz, h0⟩ | ⟨hz, h0⟩)
          · exact ⟨hz, Or.inr (Or.inr ⟨hvy, h0⟩)⟩
          · exact ⟨hz, Or.inl (hvy.trans' h0)⟩
    have hf4 : ∀ v, ¬Reach E v (fstV e) → ¬Reach E v (sndV e) →
        classFin (E ++ [e]) W v = classFin E W v := by
      intro v hv1 hv2
      ext z
      simp only [mem_classFin]
      rw [reach_append]
      constructor
      · rintro ⟨hz, h0 | ⟨h1, h2⟩ | ⟨h1, h2⟩⟩
        · exact ⟨hz, h0⟩
        · exact absurd h1 hv1
        · exact absurd h1 hv2
      · rintro ⟨hz, h0⟩
        exact ⟨hz, Or.inl h0⟩
    set A := classFin E W (fstV e) with hA
    set B := classFin E W (sndV e) with hB
    set Wt := W.filter (fun v => Reach E v (fstV e) ∨ Reach E v (sndV e)) with hWt
    set Wu := W.filter (fun v => ¬(Reach E v (fstV e) ∨ Reach E v (sndV e))) with hWu
    have hsplit : Wt ∪ Wu = W := Finset.filter_union_filter_neg_eq _ W
    have hxWt : fstV e ∈ Wt := Finset.mem_filter.2 ⟨hx, Or.inl Reach.rfl'⟩
    have hyWt : sndV e ∈ Wt := Finset.mem_filter.2 ⟨hy, Or.inr Reach.rfl'⟩
    have hWsplit : ∀ f : Nat → Finset Nat, W.image f = Wt.image f ∪ Wu.image f := by
      intro f
      rw [← Finset.image_union, hsplit]
    have himg1 : W.image (classFin (E ++ [e]) W)
        = insert (A ∪ B) (Wu.image (classFin E W)) := by
      rw [hWsplit]
      have e1 : Wt.image (classFin (E ++ [e]) W) = {A ∪ B} := by
        have he : Wt.image (classFin (E ++ [e]) W) = Wt.image (fun v => A ∪ B) := by
          refine Finset.image_congr ?_
          intro v hv
          have hv2 : v ∈ Wt := hv
          exact hf3 v (Finset.mem_filter.1 hv2).2
        rw [he]
        exact Finset.image_const ⟨_, hxWt⟩ _
      have e2 : Wu.image (classFin (E ++ [e]) W) = Wu.image (classFin E W) := by
        refine Finset.image_congr (fun v hv => ?_)
        have hv2 : v ∈ Wu := hv
        have hv' := (Finset.mem_filter.1 hv2).2
        push_neg at hv'
        exact hf4 v hv'.1 hv'.2
      rw [e1, e2]
      rfl
    have himg2 : W.image (classFin E W)
        = insert A (insert B (Wu.image (classFin E W))) := by
      rw [hWsplit]
      have e1 : Wt.image (classFin E W) = {A, B} := by
        apply Finset.Subset.antisymm
        · intro s hs
          obtain ⟨v, hv, rfl⟩ := Finset.mem_image.1 hs
          rcases (Finset.mem_filter.1 hv).2 with h0 | h0
          · simp [hf1 v h0]
          · simp [hf2 v h0]
        · intro s hs
          rcases Finset.mem_insert.1 hs with rfl | hs'
          · exact Finset.mem_image.2 ⟨_, hxWt, rfl⟩
          · rw [Finset.mem_singleton.1 hs']
            exact Finset.mem_image.2 ⟨_, hyWt, rfl⟩
      rw [e1]
      ext s
      simp only [Finset.mem_union, Finset.mem_insert, Finset.mem_singleton]
      tauto
    have hyB : sndV e ∈ B := self_mem_classFin hy
    have hxA : fstV e ∈ A := self_mem_classFin hx
    have hAB : A ≠ B := by
      intro hEq
      rw [hEq] at hxA
      exact hr (mem_classFin.1 hxA).2.symm'
    have hAT : A ∉ Wu.image (classFin E W) := by
      intro hmem
      obtain ⟨v, hv, hveq⟩ := Finset.mem_image.1 hmem
      have : fstV e ∈ classFin E W v := hveq.symm ▸ hxA
      exact (Finset.mem_filter.1 hv).2 (Or.inl (mem_classFin.1 this).2)
    have hBT : B ∉ Wu.image (classFin E W) := by
      intro hmem
      obtain ⟨v, hv, hveq⟩ := Finset.mem_image.1 hmem
      have : sndV e ∈ classFin E W v := hveq.symm ▸ hyB
      exact (Finset.mem_filter.1 hv).2 (Or.inr (mem_classFin.1 this).2)
    have hUT : (A ∪ B) ∉ Wu.image (classFin E W) := by
      intro hmem
      obtain ⟨v, hv, hveq⟩ := Finset.mem_image.1 hmem
      have : fstV e ∈ classFin E W v := hveq.symm ▸ Finset.mem_union_left _ hxA
      exact (Finset.mem_filter.1 hv).2 (Or.inl (mem_classFin.1 this).2)
    rw [himg1, himg2, Finset.card_insert_of_not_mem hUT,
      Finset.card_insert_of_not_mem (by simp [hAB, hAT]),
      Finset.card_insert_of_not_mem hBT]

theorem vertsD_append_toFinset (E : List Edge) (e : Edge) :
    (vertsD (E ++ [e])).toFinset = insert (fstV e) (insert (sndV e) (vertsD E).toFinset) := by
  ext z
  simp only [List.mem_toFinset, Finset.mem_insert, mem_vertsD]
  constructor
  · rintro ⟨e', he', h⟩
    rcases List.mem_append.1 he' with h1 | h1
    · exact Or.inr (Or.inr ⟨e', h1, h⟩)
    · have : e' = e := by simpa using h1
      subst this
      rcases h with h | h
      · exact Or.inl h.symm
      · exact Or.inr (Or.inl h.symm)
  · rintro (rfl | rfl | ⟨e', he', h⟩)
    · exact ⟨e, by simp, Or.inl rfl⟩
    · exact ⟨e, by simp, Or.inr rfl⟩
    · exact ⟨e', by simp [he'], h⟩

theorem card_mid_step (E : List Edge) (e : Edge) :
    ((vertsD (E ++ [e])).toFinset.image (classFin E (vertsD (E ++ [e])).toFinset)).card
        + (vertsD E).toFinset.card
      = ((vertsD E).toFinset.image (classFin E (vertsD E).toFinset)).card
        + (vertsD (E ++ [e])).toFinset.card := by
  rw [vertsD_append_toFinset]
  by_cases hxm : fstV e ∈ (vertsD E).toFinset <;> by_cases hym : sndV e ∈ (vertsD E).toFinset
  · rw [Finset.insert_eq_self.2 hym, Finset.insert_eq_self.2 hxm]
  · have hyE : sndV e ∉ vertsD E := fun h => hym (List.mem_toFinset.2 h)
    have hxmem : fstV e ∈ insert (sndV e) (vertsD E).toFinset :=
      Finset.mem_insert_of_mem hxm
    rw [Finset.insert_eq_self.2 hxmem, card_image_class_insert E _ hym hyE,
      Finset.card_insert_of_not_mem hym]
    omega
  · have hxE : fstV e ∉ vertsD E := fun h => hxm (List.mem_toFinset.2 h)
    rw [Finset.insert_eq_self.2 hym, card_image_class_insert E _ hxm hxE,
      Finset.card_insert_of_not_mem hxm]
    omega
  · have hyE : sndV e ∉ vertsD E := fun h => hym (List.mem_toFinset.2 h)
    have hxE : fstV e ∉ vertsD E := fun h => hxm (List.mem_toFinset.2 h)
    by_cases hxy : fstV e = sndV e
    · rw [hxy, Finset.insert_idem, card_image_class_insert E _ hym hyE,
        Finset.card_insert_of_not_mem hym]
      omega
    · have hxm2 : fstV e ∉ insert (sndV e) (vertsD E).toFinset := by
        simp [hxy, hxm]
      rw [card_image_class_insert E _ hxm2 hxE, card_image_class_insert E _ hym hyE,
        Finset.card_insert_of_not_mem hxm2, Finset.card_insert_of_not_mem hym]
      omega

/-- The incremental law of the rank: appending one edge raises the rank by one
exactly when the edge joins two previously unconnected vertices. -/
theorem rankE_append (E : List Edge) (e : Edge) :
    rankE (E ++ [e]) = rankE E + (if Reach E (fstV e) (sndV e) then 0 else 1) := by
  have hxW1 : fstV e ∈ (vertsD (E ++ [e])).toFinset :=
    List.mem_toFinset.2 (fstV_mem_vertsD (by simp))
  have hyW1 : sndV e ∈ (vertsD (E ++ [e])).toFinset :=
    List.mem_toFinset.2 (sndV_mem_vertsD (by simp))
  have hmerge := card_image_class_append E e _ hxW1 hyW1
  have hmid := card_mid_step E e
  have hlen0 : (vertsD E).toFinset.card = (vertsD E).length :=
    List.toFinset_card_of_nodup (vertsD_nodup E)
  have hlen1 : (vertsD (E ++ [e])).toFinset.card = (vertsD (E ++ [e])).length :=
    List.toFinset_card_of_nodup (vertsD_nodup _)
  have hc0le : ((vertsD E).toFinset.image (classFin E (vertsD E).toFinset)).card
      ≤ (vertsD E).toFinset.card := Finset.card_image_le
  have hc1le : ((vertsD (E ++ [e])).toFinset.image
      (classFin (E ++ [e]) (vertsD (E ++ [e])).toFinset)).card
      ≤ (vertsD (E ++ [e])).toFinset.card := Finset.card_image_le
  have hd0 : ncomp E = ((vertsD E).toFinset.image (classFin E (vertsD E).toFinset)).card :=
    ncomp_eq_card E
  have hd1 : ncomp (E ++ [e]) = ((vertsD (E ++ [e])).toFinset.image
      (classFin (E ++ [e]) (vertsD (E ++ [e])).toFinset)).card := ncomp_eq_card (E ++ [e])
  have he0 : rankE E = (vertsD E).length - ncomp E := rfl
  have he1 : rankE (E ++ [e]) = (vertsD (E ++ [e])).length - ncomp (E ++ [e]) := rfl
  by_cases hre : Reach E (fstV e) (sndV e)
  · rw [if_pos hre] at hmerge ⊢
    omega
  · rw [if_neg hre] at hmerge ⊢
    omega

theorem rankE_nil : rankE [] = 0 := rfl

theorem rankE_le_length (E : List Edge) : rankE E ≤ E.length := by
  induction E using List.reverseRecOn with
  | nil => simp [rankE_nil]
  | append_singleton E e ih =>
    rw [rankE_append]
    by_cases hre : Reach E (fstV e) (sndV e) <;> simp [hre] <;> omega

/-- The multigraph given by `E` is connected: every two spanned vertices are
joined by a path. -/
def Conn (E : List Edge) : Prop := ∀ u ∈ vertsD E, ∀ v ∈ vertsD E, Reach E u v

instance (E : List Edge) : Decidable (Conn E) := by unfold Conn; infer_instance

theorem ncomp_le_card (E : List Edge) : ncomp E ≤ (vertsD E).length := by
  rw [ncomp_eq_card]
  calc ((vertsD E).toFinset.image (classFin E (vertsD E).toFinset)).card
      ≤ (vertsD E).toFinset.card := Finset.card_image_le
  _ = (vertsD E).length := List.toFinset_card_of_nodup (vertsD_nodup E)

theorem ncomp_eq_sub (E : List Edge) : ncomp E = (vertsD E).length - rankE E := by
  have h1 := ncomp_le_card E
  rw [rankE]
  omega

theorem ncomp_eq_zero_iff (E : List Edge) : ncomp E = 0 ↔ vertsD E = [] := by
  rw [ncomp_eq_card, Finset.card_eq_zero, Finset.image_eq_empty]
  constructor
  · intro h
    have := List.toFinset_eq_empty_iff (vertsD E) |>.1 h
    exact this
  · intro h
    rw [h]
    rfl

theorem conn_iff_ncomp (E : List Edge) : Conn E ↔ ncomp E ≤ 1 := by
  rw [ncomp_eq_card]
  constructor
  · intro h
    apply Finset.card_le_one.2
    intro s hs t ht
    obtain ⟨a, ha, rfl⟩ := Finset.mem_image.1 hs
    obtain ⟨b, hb, rfl⟩ := Finset.mem_image.1 ht
    have hab : Reach E a b := h a (List.mem_toFinset.1 ha) b (List.mem_toFinset.1 hb)
    ext z
    simp only [mem_classFin]
    exact ⟨fun hz => ⟨hz.1, hab.symm'.trans' hz.2⟩, fun hz => ⟨hz.1, hab.trans' hz.2⟩⟩
  · intro h u hu v hv
    have h1 : classFin E (vertsD E).toFinset u
        ∈ (vertsD E).toFinset.image (classFin E (vertsD E).toFinset) :=
      Finset.mem_image_of_mem _ (List.mem_toFinset.2 hu)
    have h2 : classFin E (vertsD E).toFinset v
        ∈ (vertsD E).toFinset.image (classFin E (vertsD E).toFinset) :=
      Finset.mem_image_of_mem _ (List.mem_toFinset.2 hv)
    have heq := Finset.card_le_one.1 h _ h1 _ h2
    have hv' : v ∈ classFin E (vertsD E).toFinset v :=
      self_mem_classFin (List.mem_toFinset.2 hv)
    rw [← heq] at hv'
    exact (mem_classFin.1 hv').2

theorem vertsD_toFinset_eq_of_mem_iff {E E' : List Edge} (h : ∀ a, a ∈ E ↔ a ∈ E') :
    (vertsD E).toFinset = (vertsD E').toFinset := by
  ext z
  simp only [List.mem_toFinset, mem_vertsD]
  constructor
  · rintro ⟨e, he, hh⟩; exact ⟨e, (h e).1 he, hh⟩
  · rintro ⟨e, he, hh⟩; exact ⟨e, (h e).2 he, hh⟩

theorem ncomp_eq_of_mem_iff {E E' : List Edge} (h : ∀ a, a ∈ E ↔ a ∈ E') :
    ncomp E = ncomp E' := by
  rw [ncomp_eq_card, ncomp_eq_card, ← vertsD_toFinset_eq_of_mem_iff h]
  congr 1
  refine Finset.image_congr (fun v hv => ?_)
  ext z
  simp only [mem_classFin]
  rw [reach_of_mem_iff h]

/-- The rank of an edge list only depends on which edges occur in it. -/
theorem rankE_eq_of_mem_iff {E E' : List Edge} (h : ∀ a, a ∈ E ↔ a ∈ E') :
    rankE E = rankE E' := by
  have hlen : (vertsD E).length = (vertsD E').length := by
    rw [← List.toFinset_card_of_nodup (vertsD_nodup E),
      ← List.toFinset_card_of_nodup (vertsD_nodup E'), vertsD_toFinset_eq_of_mem_iff h]
  rw [rankE, rankE, hlen, ncomp_eq_of_mem_iff h]

/-- On a connected edge list the rank is one less than the number of spanned
vertices (with truncated subtraction covering the empty case). -/
theorem rankE_of_conn {E : List Edge} (h : Conn E) :
    rankE E = (vertsD E).length - 1 := by
  have h1 := (conn_iff_ncomp E).1 h
  have h2 := ncomp_le_card E
  rcases hv : vertsD E with _ | ⟨w, V⟩
  · have h0 : ncomp E = 0 := (ncomp_eq_zero_iff E).2 hv
    rw [rankE, h0, hv]
    simp
  · have h0 : ncomp E ≠ 0 := by
      intro hc
      rw [ncomp_eq_zero_iff E, hv] at hc
      exact List.cons_ne_nil _ _ hc
    rw [rankE, hv]
    omega

/-! ## Gluing two edge lists at two gate vertices -/

/-- The vertex sets of `A` and `B` intersect only in the gates `a`, `b`. -/
def Sep2 (A B : List Edge) (a b : Nat) : Prop :=
  ∀ w, w ∈ vertsD A → w ∈ vertsD B → w = a ∨ w = b

/-- Reachability within one of the two sides. -/
def ReachU (A B : List Edge) (x y : Nat) : Prop := Reach A x y ∨ Reach B x y

/-- Reachability in the glued graph, described by side-paths switching at the
gates. -/
def Gate (A B : List Edge) (a b x y : Nat) : Prop :=
  ReachU A B x y ∨
  (ReachU A B x a ∧ ReachU A B a y) ∨
  (ReachU A B x b ∧ ReachU A B b y) ∨
  (ReachU A B x a ∧ ReachU A B a b ∧ ReachU A B b y) ∨
  (ReachU A B x b ∧ ReachU A B a b ∧ ReachU A B a y)

theorem reachU_comm_sides {A B : List Edge} {x y : Nat} :
    ReachU A B x y ↔ ReachU B A x y := Or.comm

theorem gate_comm_sides {A B : List Edge} {a b x y : Nat} :
    Gate A B a b x y ↔ Gate B A a b x y := by
  unfold Gate
  rw [reachU_comm_sides (x := x) (y := y)]
  rw [reachU_comm_sides (x := x) (y := a), reachU_comm_sides (x := a) (y := y)]
  rw [reachU_comm_sides (x := x) (y := b), reachU_comm_sides (x := b) (y := y)]
  rw [reachU_comm_sides (x := a) (y := b)]

theorem adjacent_union_iff {A B : List Edge} {x y : Nat} :
    adjacent (A ++ B) x y = true ↔ adjacent A x y = true ∨ adjacent B x y = true := by
  simp [adjacent, List.any_append]

theorem reachU_to_union {A B : List Edge} {x y : Nat} (h : ReachU A B x y) :
    Reach (A ++ B) x y := by
  rcases h with h | h
  · exact reach_mono (fun e he => List.mem_append.2 (Or.inl he)) h
  · exact reach_mono (fun e he => List.mem_append.2 (Or.inr he)) h

/-- One adjacency step on the `A` side extends the gate description. -/
theorem gate_step_left {A B : List Edge} {a b : Nat} (hsep : Sep2 A B a b)
    {x w v : Nat} (hg : Gate A B a b x w) (hadj : adjacent A w v = true) :
    Gate A B a b x v := by
  have hAwv : Reach A w v := Reach.single hadj
  have hwA : w ∈ vertsD A := (mem_vertsD_of_adjacent hadj).1
  -- a path ending on the B side must currently sit at a vertex of B;
  -- if it is also a vertex of A it is one of the gates
  have hgate : ∀ z, Reach B z w → z = w ∨ w = a ∨ w = b := by
    intro z hz
    rcases reach_src_cases hz with h1 | ⟨-, h2⟩
    · exact Or.inl h1
    · exact Or.inr (hsep w hwA h2)
  rcases hg with h0 | ⟨h1, h2⟩ | ⟨h1, h2⟩ | ⟨h1, h2, h3⟩ | ⟨h1, h2, h3⟩
  · rcases h0 with h0 | h0
    · exact Or.inl (Or.inl (h0.trans' hAwv))
    · rcases hgate x h0 with rfl | rfl | rfl
      · exact Or.inl (Or.inl hAwv)
      · exact Or.inr (Or.inl ⟨Or.inr h0, Or.inl hAwv⟩)
      · exact Or.inr (Or.inr (Or.inl ⟨Or.inr h0, Or.inl hAwv⟩))
  · rcases h2 with h2 | h2
    · exact Or.inr (Or.inl ⟨h1, Or.inl (h2.trans' hAwv)⟩)
    · rcases hgate a h2 with rfl | rfl | rfl
      · exact Or.inr (Or.inl ⟨h1, Or.inl hAwv⟩)
      · exact Or.inr (Or.inl ⟨h1, Or.inl hAwv⟩)
      · exact Or.inr (Or.inr (Or.inr (Or.inl ⟨h1, Or.inr h2, Or.inl hAwv⟩)))
  · rcases h2 with h2 | h2
    · exact Or.inr (Or.inr (Or.inl ⟨h1, Or.inl (h2.trans' hAwv)⟩))
    · rcases hgate b h2 with rfl | rfl | rfl
      · exact Or.inr (Or.inr (Or.inl ⟨h1, Or.inl hAwv⟩))
      · exact Or.inr (Or.inr (Or.inr (Or.inr ⟨h1, Or.inr h2.symm', Or.inl hAwv⟩)))
      · exact Or.inr (Or.inr (Or.inl ⟨h1, Or.inl hAwv⟩))
  · rcases h3 with h3 | h3
    · exact Or.inr (Or.inr (Or.inr (Or.inl ⟨h1, h2, Or.inl (h3.trans' hAwv)⟩)))
    · rcases hgate b h3 with rfl | rfl | rfl
      · exact Or.inr (Or.inr (Or.inr (Or.inl ⟨h1, h2, Or.inl hAwv⟩)))
      · exact Or.inr (Or.inl ⟨h1, Or.inl hAwv⟩)
      · exact Or.inr (Or.inr (Or.inr (Or.inl ⟨h1, h2, Or.inl hAwv⟩)))
  · rcases h3 with h3 | h3
    · exact Or.inr (Or.inr (Or.inr (Or.inr ⟨h1, h2, Or.inl (h3.trans' hAwv)⟩)))
    · rcases hgate a h3 with rfl | rfl | rfl
      · exact Or.inr (Or.inr (Or.inr (Or.inr ⟨h1, h2, Or.inl hAwv⟩)))
      · exact Or.inr (Or.inr (Or.inr (Or.inr ⟨h1, h2, Or.inl hAwv⟩)))
      · exact Or.inr (Or.inr (Or.inl ⟨h1, Or.inl hAwv⟩))

theorem sep2_comm {A B : List Edge} {a b : Nat} (h : Sep2 A B a b) : Sep2 B A a b :=
  fun w h1 h2 => h w h2 h1

/-- The gate formula: reachability in the glued graph `A ++ B` is exactly
side-reachability with at most two switches at the gates. -/
theorem reach_union_sep {A B : List Edge} {a b : Nat} (hsep : Sep2 A B a b)
    {x y : Nat} : Reach (A ++ B) x y ↔ Gate A B a b x y := by
  constructor
  · intro h
    induction h with
    | refl => exact Or.inl (Or.inl Reach.rfl')
    | tail hr hadj ih =>
      rcases adjacent_union_iff.1 hadj with ha | ha
      · exact gate_step_left hsep ih ha
      · exact gate_comm_sides.2
          (gate_step_left (sep2_comm hsep) (gate_comm_sides.1 ih) ha)
  · intro h
    rcases h with h0 | ⟨h1, h2⟩ | ⟨h1, h2⟩ | ⟨h1, h2, h3⟩ | ⟨h1, h2, h3⟩
    · exact reachU_to_union h0
    · exact (reachU_to_union h1).trans' (reachU_to_union h2)
    · exact (reachU_to_union h1).trans' (reachU_to_union h2)
    · exact ((reachU_to_union h1).trans' (reachU_to_union h2)).trans' (reachU_to_union h3)
    · exact ((reachU_to_union h1).trans'
        ((reachU_to_union h2).symm')).trans' (reachU_to_union h3)

/-- Key counting step for the gluing formula: if appending the edge
`(x, y, l)` on the `B` side creates a connection between `x` and `y` that
`B'` alone does not provide, then the two gates are joined inside `A`, are
joined on the `B` side once the edge is present, and were not joined on the
`B` side before. -/
theorem glue_key {A B' : List Edge} {x y l a b : Nat}
    (hsep : Sep2 A (B' ++ [(x, y, l)]) a b)
    (hP1 : Reach (A ++ B') x y)
    (hP2 : ¬ Reach B' x y) :
    Reach A a b ∧ Reach (B' ++ [(x, y, l)]) a b ∧ ¬ Reach B' a b := by
  have hxy : x ≠ y := fun h => hP2 (h ▸ Reach.rfl')
  have hxB : x ∈ vertsD (B' ++ [(x, y, l)]) :=
    mem_vertsD.2 ⟨(x, y, l), by simp, Or.inl rfl⟩
  have hyB : y ∈ vertsD (B' ++ [(x, y, l)]) :=
    mem_vertsD.2 ⟨(x, y, l), by simp, Or.inr rfl⟩
  have hsep' : Sep2 A B' a b := by
    intro w h1 h2
    refine hsep w h1 ?_
    rw [mem_vertsD] at h2 ⊢
    obtain ⟨a', ha', hh⟩ := h2
    exact ⟨a', by simp [ha'], hh⟩
  have hnorm : ∀ z g : Nat, z ∈ vertsD (B' ++ [(x, y, l)]) → Reach A z g →
      z = g ∨ (z = a ∨ z = b) := by
    intro z g hz hr
    rcases reach_src_cases hr with h1 | ⟨h1, -⟩
    · exact Or.inl h1
    · exact Or.inr (hsep z h1 hz)
  have hP5iff : Reach (B' ++ [(x, y, l)]) a b ↔
      Reach B' a b ∨ (Reach B' a x ∧ Reach B' y b) ∨ (Reach B' a y ∧ Reach B' x b) :=
    reach_append
  have fin2 : Reach A a b → Reach B' a x → Reach B' y b →
      Reach A a b ∧ Reach (B' ++ [(x, y, l)]) a b ∧ ¬ Reach B' a b := by
    intro hA h1 h2
    exact ⟨hA, hP5iff.2 (Or.inr (Or.inl ⟨h1, h2⟩)),
      fun hP4 => hP2 ((h1.symm'.trans' hP4).trans' h2.symm')⟩
  have fin3 : Reach A a b → Reach B' a y → Reach B' x b →
      Reach A a b ∧ Reach (B' ++ [(x, y, l)]) a b ∧ ¬ Reach B' a b := by
    intro hA h1 h2
    exact ⟨hA, hP5iff.2 (Or.inr (Or.inr ⟨h1, h2⟩)),
      fun hP4 => hP2 ((h2.trans' hP4.symm').trans' h1)⟩
  have hcore : Reach A x y →
      Reach A a b ∧ Reach (B' ++ [(x, y, l)]) a b ∧ ¬ Reach B' a b := by
    intro hr
    rcases hnorm x y hxB hr with h | hx2
    · exact absurd h hxy
    rcases hnorm y x hyB hr.symm' with h | hy2
    · exact absurd h.symm hxy
    rcases hx2 with rfl | rfl
    · rcases hy2 with rfl | rfl
      · exact absurd rfl hxy
      · exact fin2 hr Reach.rfl' Reach.rfl'
    · rcases hy2 with rfl | rfl
      · exact fin3 hr.symm' Reach.rfl' Reach.rfl'
      · exact absurd rfl hxy
  have hgate := (reach_union_sep hsep').1 hP1
  rcases hgate with (h0 | h0) | ⟨h1 | h1, h2 | h2⟩ | ⟨h1 | h1, h2 | h2⟩ |
    ⟨h1 | h1, h2, h3 | h3⟩ | ⟨h1 | h1, h2, h3 | h3⟩
  · exact hcore h0
  · exact absurd h0 hP2
  · exact hcore (h1.trans' h2)
  · rcases hnorm x a hxB h1 with rfl | rfl | rfl
    · exact absurd h2 hP2
    · exact absurd h2 hP2
    · exact fin3 h1.symm' h2 Reach.rfl'
  · rcases hnorm y _ hyB h2.symm' with rfl | rfl | rfl
    · exact absurd h1 hP2
    · exact absurd h1 hP2
    · exact fin2 h2 h1.symm' Reach.rfl'
  · exact absurd (h1.trans' h2) hP2
  · exact hcore (h1.trans' h2)
  · rcases hnorm x b hxB h1 with rfl | rfl | rfl
    · exact absurd h2 hP2
    · exact fin2 h1 Reach.rfl' h2.symm'
    · exact absurd h2 hP2
  · rcases hnorm y _ hyB h2.symm' with rfl | rfl | rfl
    · exact absurd h1 hP2
    · exact fin3 h2.symm' Reach.rfl' h1
    · exact absurd h1 hP2
  · exact absurd (h1.trans' h2) hP2
  · -- h1 : Reach A x a, h2 : gates, h3 : Reach A b y
    rcases hnorm x a hxB h1 with rfl | rfl | rfl
    · rcases hnorm y _ hyB h3.symm' with rfl | rfl | rfl
      · rcases h2 with h2 | h2
        · exact fin2 h2 Reach.rfl' Reach.rfl'
        · exact absurd h2 hP2
      · exact absurd rfl hxy
      · rcases h2 with h2 | h2
        · exact fin2 h2 Reach.rfl' Reach.rfl'
        · exact absurd h2 hP2
    · rcases hnorm y _ hyB h3.symm' with rfl | rfl | rfl
      · rcases h2 with h2 | h2
        · exact fin2 h2 Reach.rfl' Reach.rfl'
        · exact absurd h2 hP2
      · exact absurd rfl hxy
      · rcases h2 with h2 | h2
        · exact fin2 h2 Reach.rfl' Reach.rfl'
        · exact absurd h2 hP2
    · rcases hnorm y _ hyB h3.symm' with rfl | rfl | rfl
      · exact absurd rfl hxy
      · rcases h2 with h2 | h2
        · exact fin3 h2 Reach.rfl' Reach.rfl'
        · exact absurd h2.symm' hP2
      · exact absurd rfl hxy
  · -- h1 : Reach A x a, h2 : gates, h3 : Reach B' b y
    rcases hnorm x a hxB h1 with rfl | rfl | rfl
    · rcases h2 with h2 | h2
      · exact fin2 h2 Reach.rfl' h3.symm'
      · exact absurd (h2.trans' h3) hP2
    · rcases h2 with h2 | h2
      · exact fin2 h2 Reach.rfl' h3.symm'
      · exact absurd (h2.trans' h3) hP2
    · exact absurd h3 hP2
  · -- h1 : Reach B' x a, h2 : gates, h3 : Reach A b y
    rcases hnorm y _ hyB h3.symm' with rfl | rfl | rfl
    · rcases h2 with h2 | h2
      · exact fin2 h2 h1.symm' Reach.rfl'
      · exact absurd (h1.trans' h2) hP2
    · exact absurd h1 hP2
    · rcases h2 with h2 | h2
      · exact fin2 h2 h1.symm' Reach.rfl'
      · exact absurd (h1.trans' h2) hP2
  · -- h1 : Reach B' x a, h2 : gates, h3 : Reach B' b y
    rcases h2 with h2 | h2
    · exact fin2 h2 h1.symm' h3.symm'
    · exact absurd ((h1.trans' h2).trans' h3) hP2
  · -- h1 : Reach A x b, h2 : gates, h3 : Reach A a y
    rcases hnorm x b hxB h1 with rfl | rfl | rfl
    · rcases hnorm y _ hyB h3.symm' with rfl | rfl | rfl
      · rcases h2 with h2 | h2
        · exact fin3 h2 Reach.rfl' Reach.rfl'
        · exact absurd h2.symm' hP2
      · rcases h2 with h2 | h2
        · exact fin3 h2 Reach.rfl' Reach.rfl'
        · exact absurd h2.symm' hP2
      · exact absurd rfl hxy
    · rcases hnorm y _ hyB h3.symm' with rfl | rfl | rfl
      · exact absurd rfl hxy
      · exact absurd rfl hxy
      · exact fin2 h1 Reach.rfl' Reach.rfl'
    · rcases hnorm y _ hyB h3.symm' with rfl | rfl | rfl
      · rcases h2 with h2 | h2
        · exact fin3 h2 Reach.rfl' Reach.rfl'
        · exact absurd h2.symm' hP2
      · rcases h2 with h2 | h2
        · exact fin3 h2 Reach.rfl' Reach.rfl'
        · exact absurd h2.symm' hP2
      · exact absurd rfl hxy
  · -- h1 : Reach A x b, h2 : gates, h3 : Reach B' a y
    rcases hnorm x b hxB h1 with rfl | rfl | rfl
    · rcases h2 with h2 | h2
      · exact fin3 h2 h3 Reach.rfl'
      · exact absurd (h2.symm'.trans' h3) hP2
    · exact absurd h3 hP2
    · rcases h2 with h2 | h2
      · exact fin3 h2 h3 Reach.rfl'
      · exact absurd (h2.symm'.trans' h3) hP2
  · -- h1 : Reach B' x b, h2 : gates, h3 : Reach A a y
    rcases hnorm y _ hyB h3.symm' with rfl | rfl | rfl
    · rcases h2 with h2 | h2
      · exact fin3 h2 Reach.rfl' h1
      · exact absurd (h1.trans' h2.symm') hP2
    · rcases h2 with h2 | h2
      · exact fin3 h2 Reach.rfl' h1
      · exact absurd (h1.trans' h2.symm') hP2
    · exact absurd h1 hP2
  · -- h1 : Reach B' x b, h2 : gates, h3 : Reach B' a y
    rcases h2 with h2 | h2
    · exact fin3 h2 h3 h1
    · exact absurd ((h1.trans' h2.symm').trans' h3) hP2

theorem sep2_of_append {A B : List Edge} {e : Edge} {a b : Nat}
    (h : Sep2 A (B ++ [e]) a b) : Sep2 A B a b := by
  intro w h1 h2
  refine h w h1 ?_
  rw [mem_vertsD] at h2 ⊢
  obtain ⟨a', ha', hh⟩ := h2
  exact ⟨a', by simp [ha'], hh⟩

/-- The correction term in the gluing formula: 1 when both sides already
connect the two gate vertices (a cycle is formed through the gates). -/
def glueCorr (A B : List Edge) (a b : Nat) : Nat :=
  if Reach A a b ∧ Reach B a b then 1 else 0

/-- Gluing formula: when two edge lists share at most the two gate vertices
`a` and `b`, the rank of the union differs from the sum of ranks exactly by
the correction term. -/
theorem rank_glue {A : List Edge} {a b : Nat} (hab : a ≠ b) :
    ∀ B : List Edge, Sep2 A B a b →
      rankE (A ++ B) + glueCorr A B a b = rankE A + rankE B := by
  intro B
  induction B using List.reverseRecOn with
  | nil =>
    intro _
    simp [rankE_nil, glueCorr, reach_nil, hab]
  | append_singleton B' e ih =>
    intro hsep
    obtain ⟨x, y, l⟩ := e
    have hsep' : Sep2 A B' a b := sep2_of_append hsep
    have hIH := ih hsep'
    have hAu : ∀ e ∈ A, e ∈ A ++ B' := fun e he => List.mem_append.2 (Or.inl he)
    have hBu : ∀ e ∈ B', e ∈ A ++ B' := fun e he => List.mem_append.2 (Or.inr he)
    have hL : rankE (A ++ (B' ++ [(x, y, l)])) =
        rankE (A ++ B') + (if Reach (A ++ B') x y then 0 else 1) := by
      rw [← List.append_assoc]
      exact rankE_append (A ++ B') (x, y, l)
    have hR : rankE (B' ++ [(x, y, l)]) =
        rankE B' + (if Reach B' x y then 0 else 1) := rankE_append B' (x, y, l)
    by_cases hP2 : Reach B' x y
    · have hP1 : Reach (A ++ B') x y := reach_mono hBu hP2
      have hcorr : glueCorr A (B' ++ [(x, y, l)]) a b = glueCorr A B' a b := by
        have h54 : Reach (B' ++ [(x, y, l)]) a b ↔ Reach B' a b := by
          constructor
          · intro h5
            rcases reach_append.1 h5 with h | ⟨ha1, ha2⟩ | ⟨ha1, ha2⟩
            · exact h
            · exact (ha1.trans' hP2).trans' ha2
            · exact (ha1.trans' hP2.symm').trans' ha2
          · exact reach_mono (fun e he => List.mem_append.2 (Or.inl he))
        simp only [glueCorr, h54]
      rw [hL, hR, hcorr, if_pos hP1, if_pos hP2]
      omega
    · by_cases hP1 : Reach (A ++ B') x y
      · obtain ⟨h3, h5, h4⟩ := glue_key hsep hP1 hP2
        have hc1 : glueCorr A (B' ++ [(x, y, l)]) a b = 1 := if_pos ⟨h3, h5⟩
        have hc2 : glueCorr A B' a b = 0 := if_neg (fun h => h4 h.2)
        rw [hL, hR, hc1, if_pos hP1, if_neg hP2]
        rw [hc2] at hIH
        omega
      · have hcorr : glueCorr A (B' ++ [(x, y, l)]) a b = glueCorr A B' a b := by
          by_cases hP3 : Reach A a b
          · have h54 : Reach (B' ++ [(x, y, l)]) a b ↔ Reach B' a b := by
              constructor
              · intro h5
                rcases reach_append.1 h5 with h | ⟨ha1, ha2⟩ | ⟨ha1, ha2⟩
                · exact h
                · exact absurd (((reach_mono hBu ha1.symm').trans'
                    (reach_mono hAu hP3)).trans' (reach_mono hBu ha2.symm')) hP1
                · exact absurd (((reach_mono hBu ha2).trans'
                    (reach_mono hAu hP3.symm')).trans' (reach_mono hBu ha1)) hP1
              · exact reach_mono (fun e he => List.mem_append.2 (Or.inl he))
            simp only [glueCorr, h54]
          · have hc1 : glueCorr A (B' ++ [(x, y, l)]) a b = 0 :=
              if_neg (fun h => hP3 h.1)
            have hc2 : glueCorr A B' a b = 0 := if_neg (fun h => hP3 h.1)
            rw [hc1, hc2]
        rw [hL, hR, hcorr, if_neg hP1, if_neg hP2]
        omega

/-- Apply a vertex relabeling to an edge, keeping the ground-set label. -/
def mapEdge (f : Nat → Nat) (e : Edge) : Edge := (f (fstV e), f (sndV e), lab e)

theorem adjacent_map_iff {f : Nat → Nat} (hf : Function.Injective f) {E : List Edge}
    {u v : Nat} :
    adjacent (E.map (mapEdge f)) (f u) (f v) = true ↔ adjacent E u v = true := by
  constructor
  · intro h
    obtain ⟨e', he', hh⟩ := adjacent_iff.1 h
    obtain ⟨e, he, rfl⟩ := List.mem_map.1 he'
    refine adjacent_iff.2 ⟨e, he, ?_⟩
    rcases hh with ⟨h1, h2⟩ | ⟨h1, h2⟩
    · exact Or.inl ⟨hf h1, hf h2⟩
    · exact Or.inr ⟨hf h1, hf h2⟩
  · intro h
    obtain ⟨e, he, hh⟩ := adjacent_iff.1 h
    refine adjacent_iff.2 ⟨mapEdge f e, List.mem_map.2 ⟨e, he, rfl⟩, ?_⟩
    rcases hh with ⟨h1, h2⟩ | ⟨h1, h2⟩
    · exact Or.inl ⟨congrArg f h1, congrArg f h2⟩
    · exact Or.inr ⟨congrArg f h1, congrArg f h2⟩

theorem reach_map_exists {f : Nat → Nat} (hf : Function.Injective f) {E : List Edge}
    {u w : Nat} (h : Reach (E.map (mapEdge f)) (f u) w) :
    ∃ v, w = f v ∧ Reach E u v := by
  induction h with
  | refl => exact ⟨u, rfl, Reach.rfl'⟩
  | tail hr hadj ih =>
    obtain ⟨v, rfl, hv⟩ := ih
    obtain ⟨e', he', hh⟩ := adjacent_iff.1 hadj
    obtain ⟨e, he, rfl⟩ := List.mem_map.1 he'
    rcases hh with ⟨h1, h2⟩ | ⟨h1, h2⟩
    · exact ⟨sndV e, h2.symm, hv.tail' (adjacent_iff.2 ⟨e, he, Or.inl ⟨hf h1, rfl⟩⟩)⟩
    · exact ⟨fstV e, h1.symm, hv.tail' (adjacent_iff.2 ⟨e, he, Or.inr ⟨rfl, hf h2⟩⟩)⟩

/-- An injective vertex relabeling preserves connectivity. -/
theorem reach_map_iff {f : Nat → Nat} (hf : Function.Injective f) {E : List Edge}
    {u v : Nat} : Reach (E.map (mapEdge f)) (f u) (f v) ↔ Reach E u v := by
  constructor
  · intro h
    obtain ⟨v', hv', hr⟩ := reach_map_exists hf h
    rwa [← hf hv'] at hr
  · intro h
    induction h with
    | refl => exact Reach.rfl'
    | tail hr hadj ih => exact ih.tail' ((adjacent_map_iff hf).2 hadj)

/-- An injective vertex relabeling preserves the rank of an edge list. -/
theorem rankE_map {f : Nat → Nat} (hf : Function.Injective f) :
    ∀ E : List Edge, rankE (E.map (mapEdge f)) = rankE E := by
  intro E
  induction E using List.reverseRecOn with
  | nil => rfl
  | append_singleton E' e ih =>
    obtain ⟨x, y, l⟩ := e
    rw [List.map_append]
    have h1 : rankE (E'.map (mapEdge f) ++ [(f x, f y, l)]) =
        rankE (E'.map (mapEdge f)) +
          (if Reach (E'.map (mapEdge f)) (f x) (f y) then 0 else 1) :=
      rankE_append _ (f x, f y, l)
    have h2 : rankE (E' ++ [(x, y, l)]) =
        rankE E' + (if Reach E' x y then 0 else 1) := rankE_append E' (x, y, l)
    rw [show (List.map (mapEdge f) [(x, y, l)]) = [(f x, f y, l)] from rfl, h1, h2, ih]
    congr 1
    by_cases hr : Reach E' x y
    · rw [if_pos hr, if_pos ((reach_map_iff hf).2 hr)]
    · rw [if_neg hr, if_neg (fun hc => hr ((reach_map_iff hf).1 hc))]

theorem mem_vertsD_map {f : Nat → Nat} {E : List Edge} {w : Nat} :
    w ∈ vertsD (E.map (mapEdge f)) ↔ ∃ v ∈ vertsD E, f v = w := by
  constructor
  · intro h
    obtain ⟨e', he', hh⟩ := mem_vertsD.1 h
    obtain ⟨e, he, rfl⟩ := List.mem_map.1 he'
    rcases hh with h1 | h1
    · exact ⟨fstV e, fstV_mem_vertsD he, h1⟩
    · exact ⟨sndV e, sndV_mem_vertsD he, h1⟩
  · intro h
    obtain ⟨v, hv, rfl⟩ := h
    obtain ⟨e, he, hh⟩ := mem_vertsD.1 hv
    rcases hh with h1 | h1
    · exact mem_vertsD.2 ⟨mapEdge f e, List.mem_map.2 ⟨e, he, rfl⟩, Or.inl (congrArg f h1)⟩
    · exact mem_vertsD.2 ⟨mapEdge f e, List.mem_map.2 ⟨e, he, rfl⟩, Or.inr (congrArg f h1)⟩

/-- The vertex transposition used by `twist`: exchange the two shared
vertices, fix everything else. -/
def swapV (a b : Nat) (v : Nat) : Nat := if v = a then b else if v = b then a else v

theorem swapV_invol (a b v : Nat) : swapV a b (swapV a b v) = v := by
  unfold swapV
  split_ifs <;> omega

theorem swapV_inj (a b : Nat) : Function.Injective (swapV a b) :=
  fun u v h => by rw [← swapV_invol a b u, h, swapV_invol]

theorem sep2_map_swap {C X : List Edge} {a b : Nat} (hsep : Sep2 C X a b) :
    Sep2 C (X.map (mapEdge (swapV a b))) a b := by
  intro w h1 h2
  obtain ⟨v, hv, hw⟩ := mem_vertsD_map.1 h2
  subst hw
  by_cases hva : v = a
  · have hs : swapV a b v = b := by unfold swapV; split_ifs <;> omega
    rw [hs]
    exact Or.inr rfl
  by_cases hvb : v = b
  · have hs : swapV a b v = a := by unfold swapV; split_ifs <;> omega
    rw [hs]
    exact Or.inl rfl
  have hfix : swapV a b v = v := by unfold swapV; split_ifs <;> omega
  rw [hfix] at h1 ⊢
  exact hsep v h1 hv

theorem reach_swap_gates {X : List Edge} {a b : Nat} :
    Reach (X.map (mapEdge (swapV a b))) a b ↔ Reach X a b := by
  have ha : swapV a b b = a := by unfold swapV; split_ifs <;> omega
  have hb : swapV a b a = b := by unfold swapV; split_ifs <;> omega
  have h2 := reach_map_iff (swapV_inj a b) (E := X) (u := b) (v := a)
  rw [ha, hb] at h2
  exact h2.trans ⟨Reach.symm', Reach.symm'⟩

/-- Core of the Whitney-twist rank argument: swapping the two gate vertices
on the `X` side of a two-vertex separation does not change the rank of the
whole edge list. -/
theorem rank_twist_core {C X : List Edge} {a b : Nat} (hab : a ≠ b)
    (hsep : Sep2 C X a b) :
    rankE (C ++ X.map (mapEdge (swapV a b))) = rankE (C ++ X) := by
  have h1 := rank_glue hab X hsep
  have h2 := rank_glue hab (X.map (mapEdge (swapV a b))) (sep2_map_swap hsep)
  rw [rankE_map (swapV_inj a b)] at h2
  have hcorr : glueCorr C (X.map (mapEdge (swapV a b))) a b = glueCorr C X a b := by
    unfold glueCorr
    simp only [reach_swap_gates]
  rw [hcorr] at h2
  omega

/-! ## Sorting and endpoint normalization

`Graph.edges()` returns each edge with endpoints in increasing order and the
list sorted lexicographically, and `Graph.vertices()` is sorted; the sorts are
realised as structural insertion sorts so every definition evaluates by
kernel reduction. -/

/-- Endpoint normalization of a stored edge: smaller endpoint first. -/
def normEdge (e : Edge) : Edge :=
  if sndV e < fstV e then (sndV e, fstV e, lab e) else e

theorem lab_normEdge (e : Edge) : lab (normEdge e) = lab e := by
  unfold normEdge
  split_ifs <;> rfl

theorem normEdge_endpoints (e : Edge) :
    (fstV (normEdge e) = fstV e ∧ sndV (normEdge e) = sndV e) ∨
      (fstV (normEdge e) = sndV e ∧ sndV (normEdge e) = fstV e) := by
  unfold normEdge
  split_ifs
  · exact Or.inr ⟨rfl, rfl⟩
  · exact Or.inl ⟨rfl, rfl⟩

/-- Lexicographic comparison on `(u, v, label)`. -/
def edgeLE (e f : Edge) : Bool :=
  decide (e.1 < f.1) || (e.1 == f.1 &&
    (decide (e.2.1 < f.2.1) || (e.2.1 == f.2.1 && decide (e.2.2 ≤ f.2.2))))

theorem edgeLE_iff {e f : Edge} : edgeLE e f = true ↔
    e.1 < f.1 ∨ (e.1 = f.1 ∧ (e.2.1 < f.2.1 ∨ (e.2.1 = f.2.1 ∧ e.2.2 ≤ f.2.2))) := by
  simp [edgeLE]

theorem edgeLE_total (e f : Edge) : edgeLE e f = true ∨ edgeLE f e = true := by
  rw [edgeLE_iff, edgeLE_iff]
  omega

theorem edgeLE_antisymm {e f : Edge} (h1 : edgeLE e f = true) (h2 : edgeLE f e = true) :
    e = f := by
  rw [edgeLE_iff] at h1 h2
  obtain ⟨a, b, c⟩ := e
  obtain ⟨x, y, z⟩ := f
  simp only [Prod.mk.injEq]
  simp only [Prod.fst, Prod.snd] at h1 h2
  omega

def insertEdge (e : Edge) : List Edge → List Edge
  | [] => [e]
  | f :: rest => if edgeLE e f then e :: f :: rest else f :: insertEdge e rest

/-- Sorted copy of an edge list, as `Graph.edges()` returns it. -/
def sortEdges (E : List Edge) : List Edge := E.foldr insertEdge []

theorem insertEdge_perm (e : Edge) (l : List Edge) :
    List.Perm (insertEdge e l) (e :: l) := by
  induction l with
  | nil => exact List.Perm.refl _
  | cons f rest ih =>
    unfold insertEdge
    by_cases h : edgeLE e f = true
    · rw [if_pos h]
    · rw [if_neg h]
      exact (List.Perm.cons f ih).trans (List.Perm.swap e f rest)

theorem sortEdges_perm (E : List Edge) : List.Perm (sortEdges E) E := by
  induction E with
  | nil => exact List.Perm.refl _
  | cons e rest ih =>
    exact (insertEdge_perm e (sortEdges rest)).trans (List.Perm.cons e ih)

theorem mem_sortEdges {E : List Edge} {e : Edge} : e ∈ sortEdges E ↔ e ∈ E :=
  (sortEdges_perm E).mem_iff

theorem edgeLE_trans {e f g : Edge} (h1 : edgeLE e f = true) (h2 : edgeLE f g = true) :
    edgeLE e g = true := by
  rw [edgeLE_iff] at h1 h2 ⊢
  omega

theorem sorted_insertEdge {e : Edge} {l : List Edge}
    (h : l.Sorted (fun a b => edgeLE a b = true)) :
    (insertEdge e l).Sorted (fun a b => edgeLE a b = true) := by
  induction l with
  | nil => simp [insertEdge]
  | cons f rest ih =>
    rw [List.sorted_cons] at h
    unfold insertEdge
    by_cases hef : edgeLE e f = true
    · rw [if_pos hef]
      refine List.sorted_cons.2 ⟨?_, List.sorted_cons.2 h⟩
      intro b hb
      rcases List.mem_cons.1 hb with rfl | hb
      · exact hef
      · exact edgeLE_trans hef (h.1 b hb)
    · rw [if_neg hef]
      refine List.sorted_cons.2 ⟨?_, ih h.2⟩
      intro b hb
      rw [(insertEdge_perm e rest).mem_iff] at hb
      rcases List.mem_cons.1 hb with heq | hb
      · rw [heq]
        rcases edgeLE_total e f with h2 | h2
        · exact absurd h2 hef
        · exact h2
      · exact h.1 b hb

theorem sorted_sortEdges (E : List Edge) :
    (sortEdges E).Sorted (fun a b => edgeLE a b = true) := by
  induction E with
  | nil => simp [sortEdges]
  | cons e rest ih => exact sorted_insertEdge ih

def insertNat (x : Nat) : List Nat → List Nat
  | [] => [x]
  | y :: rest => if x ≤ y then x :: y :: rest else y :: insertNat x rest

def sortNat (l : List Nat) : List Nat := l.foldr insertNat []

theorem insertNat_perm (x : Nat) (l : List Nat) :
    List.Perm (insertNat x l) (x :: l) := by
  induction l with
  | nil => exact List.Perm.refl _
  | cons y rest ih =>
    unfold insertNat
    by_cases h : x ≤ y
    · rw [if_pos h]
    · rw [if_neg h]
      exact (List.Perm.cons y ih).trans (List.Perm.swap x y rest)

theorem sortNat_perm (l : List Nat) : List.Perm (sortNat l) l := by
  induction l with
  | nil => exact List.Perm.refl _
  | cons x rest ih =>
    exact (insertNat_perm x (sortNat rest)).trans (List.Perm.cons x ih)

/-- `G.vertices()`: the spanned vertices in increasing order. -/
def sortedVerts (E : List Edge) : List Nat := sortNat (vertsD E)

theorem mem_sortedVerts {E : List Edge} {v : Nat} :
    v ∈ sortedVerts E ↔ v ∈ vertsD E := (sortNat_perm (vertsD E)).mem_iff

theorem sortedVerts_nodup (E : List Edge) : (sortedVerts E).Nodup :=
  ((sortNat_perm (vertsD E)).nodup_iff).2 (vertsD_nodup E)

/-! ## Graph-equivalence transfer

Two edge lists presenting the same multigraph (same spanned vertices, same
adjacency) have the same connectivity, component count and rank. -/

theorem reach_of_adj_iff {E E' : List Edge}
    (h : ∀ u v, adjacent E u v = adjacent E' u v) {u v : Nat} :
    Reach E u v ↔ Reach E' u v := by
  constructor
  · intro hr
    induction hr with
    | refl => exact Reach.rfl'
    | tail hr hadj ih => exact ih.tail' (h _ _ ▸ hadj)
  · intro hr
    induction hr with
    | refl => exact Reach.rfl'
    | tail hr hadj ih => exact ih.tail' (h _ _ ▸ hadj)

theorem vertsD_toFinset_eq_of_viff {E E' : List Edge}
    (h : ∀ w, w ∈ vertsD E ↔ w ∈ vertsD E') :
    (vertsD E).toFinset = (vertsD E').toFinset := by
  ext z
  simp only [List.mem_toFinset]
  exact h z

theorem ncomp_eq_of_graph_iff {E E' : List Edge}
    (hv : ∀ w, w ∈ vertsD E ↔ w ∈ vertsD E')
    (hr : ∀ u v, Reach E u v ↔ Reach E' u v) :
    ncomp E = ncomp E' := by
  rw [ncomp_eq_card, ncomp_eq_card, ← vertsD_toFinset_eq_of_viff hv]
  congr 1
  refine Finset.image_congr (fun v hv2 => ?_)
  ext z
  simp only [mem_classFin]
  rw [hr]

theorem rankE_eq_of_graph_iff {E E' : List Edge}
    (hv : ∀ w, w ∈ vertsD E ↔ w ∈ vertsD E')
    (hr : ∀ u v, Reach E u v ↔ Reach E' u v) :
    rankE E = rankE E' := by
  have hlen : (vertsD E).length = (vertsD E').length := by
    rw [← List.toFinset_card_of_nodup (vertsD_nodup E),
      ← List.toFinset_card_of_nodup (vertsD_nodup E'), vertsD_toFinset_eq_of_viff hv]
  rw [rankE, rankE, hlen, ncomp_eq_of_graph_iff hv hr]

theorem conn_of_graph_iff {E E' : List Edge}
    (hv : ∀ w, w ∈ vertsD E ↔ w ∈ vertsD E')
    (hr : ∀ u v, Reach E u v ↔ Reach E' u v) :
    Conn E ↔ Conn E' := by
  rw [conn_iff_ncomp, conn_iff_ncomp, ncomp_eq_of_graph_iff hv hr]

theorem conn_of_mem_iff {E E' : List Edge} (h : ∀ e, e ∈ E ↔ e ∈ E') :
    Conn E ↔ Conn E' := by
  refine conn_of_graph_iff (fun w => ?_) (fun u v => reach_of_mem_iff h)
  rw [mem_vertsD, mem_vertsD]
  constructor
  · rintro ⟨e, he, hh⟩; exact ⟨e, (h e).1 he, hh⟩
  · rintro ⟨e, he, hh⟩; exact ⟨e, (h e).2 he, hh⟩

theorem mem_vertsD_iff_of_mem_iff {E E' : List Edge} (h : ∀ e, e ∈ E ↔ e ∈ E') {w : Nat} :
    w ∈ vertsD E ↔ w ∈ vertsD E' := by
  rw [mem_vertsD, mem_vertsD]
  constructor
  · rintro ⟨e, he, hh⟩; exact ⟨e, (h e).1 he, hh⟩
  · rintro ⟨e, he, hh⟩; exact ⟨e, (h e).2 he, hh⟩

theorem adjacent_normEdge (E : List Edge) (u v : Nat) :
    adjacent (E.map normEdge) u v = adjacent E u v := by
  rcases h1 : adjacent (E.map normEdge) u v with _ | _ <;>
    rcases h2 : adjacent E u v with _ | _ <;> try rfl
  · obtain ⟨e, he, hh⟩ := adjacent_iff.1 h2
    suffices hs : adjacent (E.map normEdge) u v = true by rw [h1] at hs; exact hs
    refine adjacent_iff.2 ⟨normEdge e, List.mem_map.2 ⟨e, he, rfl⟩, ?_⟩
    rcases normEdge_endpoints e with ⟨ha, hb⟩ | ⟨ha, hb⟩ <;>
      rcases hh with ⟨hc, hd⟩ | ⟨hc, hd⟩
    · exact Or.inl ⟨ha.trans hc, hb.trans hd⟩
    · exact Or.inr ⟨ha.trans hc, hb.trans hd⟩
    · exact Or.inr ⟨ha.trans hd, hb.trans hc⟩
    · exact Or.inl ⟨ha.trans hd, hb.trans hc⟩
  · obtain ⟨e', he', hh⟩ := adjacent_iff.1 h1
    obtain ⟨e, he, rfl⟩ := List.mem_map.1 he'
    suffices hs : adjacent E u v = true by rw [h2] at hs; exact hs.symm
    refine adjacent_iff.2 ⟨e, he, ?_⟩
    rcases normEdge_endpoints e with ⟨ha, hb⟩ | ⟨ha, hb⟩ <;>
      rcases hh with ⟨hc, hd⟩ | ⟨hc, hd⟩
    · exact Or.inl ⟨ha.symm.trans hc, hb.symm.trans hd⟩
    · exact Or.inr ⟨ha.symm.trans hc, hb.symm.trans hd⟩
    · exact Or.inr ⟨hb.symm.trans hd, ha.symm.trans hc⟩
    · exact Or.inl ⟨hb.symm.trans hd, ha.symm.trans hc⟩

theorem mem_vertsD_normEdge {E : List Edge} {w : Nat} :
    w ∈ vertsD (E.map normEdge) ↔ w ∈ vertsD E := by
  rw [mem_vertsD, mem_vertsD]
  constructor
  · rintro ⟨e', he', hh⟩
    obtain ⟨e, he, rfl⟩ := List.mem_map.1 he'
    rcases normEdge_endpoints e with ⟨ha, hb⟩ | ⟨ha, hb⟩ <;> rcases hh with hc | hc
    · exact ⟨e, he, Or.inl (ha ▸ hc)⟩
    · exact ⟨e, he, Or.inr (hb ▸ hc)⟩
    · exact ⟨e, he, Or.inr (ha ▸ hc)⟩
    · exact ⟨e, he, Or.inl (hb ▸ hc)⟩
  · rintro ⟨e, he, hh⟩
    refine ⟨normEdge e, List.mem_map.2 ⟨e, he, rfl⟩, ?_⟩
    rcases normEdge_endpoints e with ⟨ha, hb⟩ | ⟨ha, hb⟩ <;> rcases hh with hc | hc
    · exact Or.inl (ha.trans hc)
    · exact Or.inr (hb.trans hc)
    · exact Or.inr (hb.trans hc)
    · exact Or.inl (ha.trans hc)

theorem reach_normEdge {E : List Edge} {u v : Nat} :
    Reach (E.map normEdge) u v ↔ Reach E u v :=
  reach_of_adj_iff (adjacent_normEdge E)

theorem rankE_normEdge (E : List Edge) : rankE (E.map normEdge) = rankE E :=
  rankE_eq_of_graph_iff (fun _ => mem_vertsD_normEdge) (fun _ _ => reach_normEdge)

theorem conn_normEdge {E : List Edge} : Conn (E.map normEdge) ↔ Conn E :=
  conn_of_graph_iff (fun _ => mem_vertsD_normEdge) (fun _ _ => reach_normEdge)

/-! ## The constructor

`GraphicMatroid.__init__`: take the graph's edges in `Graph.edges()` order,
derive the ground set from the edge labels (replaced by `range(n)` when they
are not `n` distinct labels), and force the graph to be connected by
repeatedly popping the last connected component and mapping its first vertex
onto the last vertex of the preceding component.  The graph engine's
`connected_components()` lists each component in increasing vertex order,
components sorted by decreasing size with ties in first-seen order. -/

structure GM where
  edges : List Edge
deriving DecidableEq

/-- The connectivity classes of the spanned vertices in first-seen order of
`G.vertices()`; each class is listed in increasing order. -/
def compClasses (E : List Edge) : List (List Nat) :=
  ((sortedVerts E).filter
    (fun v => ((sortedVerts E).find? (fun u => reachB E u v)).getD v == v)).map
    (fun v => (sortedVerts E).filter (fun u => reachB E u v))

def insertComp (c : List Nat) : List (List Nat) → List (List Nat)
  | [] => [c]
  | d :: rest => if d.length < c.length then c :: d :: rest else d :: insertComp c rest

/-- Modelled from the spec: `connected_components()` lists the classes
sorted by size, largest first, stably. -/
def comps (E : List Edge) : List (List Nat) :=
  (compClasses E).foldl (fun acc c => insertComp c acc) []

/-- The merge loop of `__init__` on the reversed component list: pop the last
component, record that its first vertex maps to the last vertex of the
preceding component, extend.  The fuel is the number of components. -/
def mergeAux : Nat → List (List Nat) → List (Nat × Nat)
  | 0, _ => []
  | _ + 1, [] => []
  | _ + 1, [_] => []
  | fuel + 1, c :: t :: rest =>
    (c.headD 0, t.getLastD 0) :: mergeAux fuel ((t ++ c) :: rest)

def vmAssign (E : List Edge) : List (Nat × Nat) :=
  mergeAux (comps E).length (comps E).reverse

/-- Application of `_vertex_map`: the recorded assignment if any, else the
identity. -/
def applyVM (m : List (Nat × Nat)) (v : Nat) : Nat := (m.lookup v).getD v

/-- `GraphicMatroid.__init__` on the labeled multigraph given by an edge
list: sorted normalized edges, ground set from the labels, each endpoint
remapped once through the vertex map of the merge loop. -/
def construct (E : List Edge) : GM :=
  let Es := sortEdges (E.map normEdge)
  let labs := Es.map lab
  let gs := if labs.Nodup then labs else List.range Es.length
  let asn := vmAssign Es
  ⟨(Es.zip gs).map (fun p => (applyVM asn (fstV p.1), applyVM asn (sndV p.1), p.2))⟩

theorem mergeAux_short (n : Nat) (l : List (List Nat)) (h : l.length ≤ 1) :
    mergeAux n l = [] := by
  cases n with
  | zero => rfl
  | succ m =>
    cases l with
    | nil => rfl
    | cons c t =>
      cases t with
      | nil => rfl
      | cons d r => simp at h

theorem length_insertComp (c : List Nat) (l : List (List Nat)) :
    (insertComp c l).length = l.length + 1 := by
  induction l with
  | nil => rfl
  | cons d rest ih =>
    unfold insertComp
    split_ifs <;> simp [ih]

theorem length_foldl_insertComp (l : List (List Nat)) :
    ∀ acc, (l.foldl (fun a c => insertComp c a) acc).length = acc.length + l.length := by
  induction l with
  | nil => intro acc; simp
  | cons c rest ih =>
    intro acc
    rw [List.foldl_cons, ih, length_insertComp, List.length_cons]
    omega

theorem comps_length (E : List Edge) : (comps E).length = (compClasses E).length := by
  rw [comps, length_foldl_insertComp]
  simp

theorem compClasses_len_of_conn {E : List Edge} (hc : Conn E) :
    (compClasses E).length ≤ 1 := by
  unfold compClasses
  rcases hV : sortedVerts E with _ | ⟨v0, rest⟩
  · simp
  · have hv0 : v0 ∈ vertsD E := mem_sortedVerts.1 (hV ▸ List.mem_cons_self v0 rest)
    have hq : ∀ v, v ∈ vertsD E →
        ((v0 :: rest).find? (fun u => reachB E u v)) = some v0 := by
      intro v hv
      have hr : reachB E v0 v = true := reachB_iff.2 (hc v0 hv0 v hv)
      simp [List.find?, hr]
    have hnd : (v0 :: rest).Nodup := hV ▸ sortedVerts_nodup E
    have hfilter : (v0 :: rest).filter
        (fun v => (((v0 :: rest).find? (fun u => reachB E u v)).getD v == v)) = [v0] := by
      have hpos : (((v0 :: rest).find? (fun u => reachB E u v0)).getD v0 == v0) = true := by
        rw [hq v0 hv0]
        simp
      have hneg : ∀ v ∈ rest,
          ¬ ((((v0 :: rest).find? (fun u => reachB E u v)).getD v == v) = true) := by
        intro v hv
        have hvE : v ∈ vertsD E :=
          mem_sortedVerts.1 (hV ▸ List.mem_cons_of_mem v0 hv)
        rw [hq v hvE]
        simp only [Option.getD_some, beq_iff_eq]
        intro heq
        exact (List.nodup_cons.1 hnd).1 (heq ▸ hv)
      have hstep : (v0 :: rest).filter
          (fun v => (((v0 :: rest).find? (fun u => reachB E u v)).getD v == v)) =
            v0 :: rest.filter
              (fun v => (((v0 :: rest).find? (fun u => reachB E u v)).getD v == v)) :=
        List.filter_cons_of_pos (by exact hpos)
      have hnil : rest.filter
          (fun v => (((v0 :: rest).find? (fun u => reachB E u v)).getD v == v)) = [] :=
        List.filter_eq_nil_iff.2 hneg
      rw [hstep, hnil]
    rw [hfilter]
    simp

theorem vmAssign_of_conn {E : List Edge} (hc : Conn E) : vmAssign E = [] := by
  have h1 : (comps E).length ≤ 1 := by
    rw [comps_length]
    exact compClasses_len_of_conn hc
  have h2 : (comps E).reverse.length ≤ 1 := by
    rw [List.length_reverse]
    exact h1
  exact mergeAux_short _ _ h2

theorem zip_rebuild (L : List Edge) :
    (L.zip (L.map lab)).map
      (fun p => (applyVM [] (fstV p.1), applyVM [] (sndV p.1), p.2)) = L := by
  induction L with
  | nil => rfl
  | cons e t ih =>
    obtain ⟨a, b, c⟩ := e
    simp only [List.map_cons, List.zip_cons_cons, ih]
    rfl

theorem sortNorm_labels_perm (E : List Edge) :
    List.Perm ((sortEdges (E.map normEdge)).map lab) (E.map lab) := by
  have h1 := (sortEdges_perm (E.map normEdge)).map lab
  have h2 : (E.map normEdge).map lab = E.map lab := by
    rw [List.map_map]
    exact List.map_congr_left (fun e _ => lab_normEdge e)
  rwa [h2] at h1

theorem conn_sortNorm {E : List Edge} (hc : Conn E) :
    Conn (sortEdges (E.map normEdge)) := by
  rw [conn_of_mem_iff (fun e => mem_sortEdges)]
  exact conn_normEdge.2 hc

/-- On a connected input with distinct labels the constructor keeps the graph
as it is: its edges are exactly the sorted normalized input edges. -/
theorem construct_edges_of_conn {E : List Edge} (hc : Conn E)
    (hnd : (E.map lab).Nodup) :
    (construct E).edges = sortEdges (E.map normEdge) := by
  have hnd2 : ((sortEdges (E.map normEdge)).map lab).Nodup :=
    ((sortNorm_labels_perm E).nodup_iff).2 hnd
  have hasn : vmAssign (sortEdges (E.map normEdge)) = [] :=
    vmAssign_of_conn (conn_sortNorm hc)
  simp only [construct]
  rw [if_pos hnd2, hasn]
  exact zip_rebuild (sortEdges (E.map normEdge))

/-! ## The matroid operations -/

/-- The stored ground set: the edge labels (`_groundset`). -/
def groundsetF (M : GM) : Finset Nat := (M.edges.map lab).toFinset

/-- `_groundset_to_edges`: the edges whose label lies in `Y`. -/
def edgesOf (M : GM) (Y : Finset Nat) : List Edge :=
  M.edges.filter (fun e => decide (lab e ∈ Y))

/-- `_rank`: spanned vertices minus number of union-find blocks of the
subgraph on `Y`. -/
def rankOf (M : GM) (Y : Finset Nat) : Nat := rankE (edgesOf M Y)

/-- Modelled from the spec: `Matroid.connectivity` of the abstract matroid
class is `rank(X) + rank(groundset − X) − rank(groundset)`. -/
def connectivityM (M : GM) (X : Finset Nat) : Nat :=
  rankOf M X + rankOf M (groundsetF M \ X) - rankOf M (groundsetF M)

/-- Modelled from the spec: a coloop is an element in every maximal
independent set, i.e. one whose removal from the ground set lowers the
rank. -/
def isColoopB (M : GM) (x : Nat) : Bool :=
  decide (rankOf M (groundsetF M \ {x}) < rankOf M (groundsetF M))

/-- Modelled from the spec: the graph engine's forest test — a multigraph is
a forest when it has no cycle, i.e. its rank equals its edge count. -/
def isForestB (E : List Edge) : Bool := rankE E == E.length

/-- `_is_independent`: the subgraph on `X` is a forest. -/
def isIndependentM (M : GM) (X : Finset Nat) : Bool := isForestB (edgesOf M X)

/-- `_circuit`: `None` models the `ValueError` on an independent input;
otherwise delete each edge in turn, and when the deletion leaves a forest put
the edge back and record its label. -/
def circuitOf (M : GM) (X : Finset Nat) : Option (Finset Nat) :=
  let g := edgesOf M X
  if isForestB g then none
  else some ((g.foldl (fun st e =>
    let g' := st.1.erase e
    if isForestB g' then (st.1, insert (lab e) st.2) else (g', st.2))
    (g, (∅ : Finset Nat))).2)

/-- The labels of the loops of the graph. -/
def loopLabels (M : GM) : List Nat :=
  (M.edges.filter (fun e => fstV e == sndV e)).map lab

/-- `_closure`: starting from the subgraph on `X`, add each non-`X` edge whose
endpoints are both spanned when its addition does not lower the component
count below the original count, then add every loop label. -/
def closureOf (M : GM) (X : Finset Nat) : Finset Nat :=
  let xe := edgesOf M X
  let ye := M.edges.filter (fun e => decide (lab e ∉ X))
  let V := vertsD xe
  let k := ncomp xe
  let st := ye.foldl (fun st e =>
    if V.contains (fstV e) && V.contains (sndV e) then
      if k ≤ ncomp (st.1 ++ [e]) then (st.1 ++ [e], insert (lab e) st.2)
      else (st.1, st.2)
    else st) (xe, X)
  st.2 ∪ (loopLabels M).toFinset

/-- `_is_closed`. -/
def isClosedB (M : GM) (X : Finset Nat) : Bool :=
  if (loopLabels M).all (fun l => decide (l ∈ X)) then
    let Xp := X \ (loopLabels M).toFinset
    let el := M.edges.filter (fun e => decide (lab e ∈ Xp))
    let vs := vertsD el
    let el2 := M.edges.filter (fun e => decide (lab e ∈ groundsetF M \ Xp))
    el2.all (fun e => !(vs.contains (fstV e) && vs.contains (sndV e)))
  else false

/-- `graphic_extension`: refuse a label already in the ground set, default the
second endpoint to the first (a loop), add the edge and rebuild through the
constructor. -/
def graphicExtension (M : GM) (u : Nat) (v : Option Nat) (x : Nat) : Option GM :=
  if x ∈ groundsetF M then none
  else some (construct (M.edges ++ [(u, v.getD u, x)]))

/-- `twist`: check `X ⊆ groundset`, `connectivity(X) = 1`, and that the `X`
side and its complement span exactly two common vertices; then swap the two
shared vertices on every `X` edge (the swap fixes every other endpoint, so it
is applied to all of them) and rebuild through the constructor. -/
def twistM (M : GM) (X : Finset Nat) : Option GM :=
  if X ⊆ groundsetF M then
    if connectivityM M X = 1 then
      let xe := edgesOf M X
      let ye := M.edges.filter (fun e => decide (lab e ∉ X))
      let sl := (vertsD xe).filter (fun w => (vertsD ye).contains w)
      if sl.length = 2 then
        let a := sl.headD 0
        let b := (sl.drop 1).headD 0
        some (construct (ye ++ xe.map (mapEdge (swapV a b))))
      else none
    else none
  else none

/-- `_vertex_stars` at one vertex: the labels of the incident edges. -/
def vStar (E : List Edge) (v : Nat) : Finset Nat :=
  ((E.filter (fun e => fstV e == v || sndV e == v)).map lab).toFinset

/-- `_vertex_stars`: the set of incident-label sets, from which `__hash__` is
computed. -/
def starSet (M : GM) : Finset (Finset Nat) :=
  ((vertsD M.edges).map (vStar M.edges)).toFinset

/-- Modelled from the spec: `Graph.__eq__` with labels compared
(`weighted=True`) — the two labeled multigraphs are identical, i.e. the
sorted normalized edge lists coincide. -/
def graphEqB (M N : GM) : Bool :=
  sortEdges (M.edges.map normEdge) == sortEdges (N.edges.map normEdge)

/-- A value handed to `__eq__`: either another `GraphicMatroid` or any other
object (e.g. a non-graphic matroid presenting the same labeled graph). -/
inductive PyObj where
  | gm (N : GM)
  | nonGM (edges : List Edge)

/-- `GraphicMatroid.__eq__`: a type check, then graph equality. -/
def pyEq (M : GM) (o : PyObj) : Bool :=
  match o with
  | .gm N => graphEqB M N
  | .nonGM _ => false

/-- `GraphicMatroid.__ne__`: `not self == other`. -/
def pyNe (M : GM) (o : PyObj) : Bool := !pyEq M o

/-! ## Support lemmas for the claims -/

theorem mem_vertsD_append {A B : List Edge} {w : Nat} :
    w ∈ vertsD (A ++ B) ↔ w ∈ vertsD A ∨ w ∈ vertsD B := by
  simp only [mem_vertsD, List.mem_append]
  constructor
  · rintro ⟨e, he | he, hh⟩
    · exact Or.inl ⟨e, he, hh⟩
    · exact Or.inr ⟨e, he, hh⟩
  · rintro (⟨e, he, hh⟩ | ⟨e, he, hh⟩)
    · exact ⟨e, Or.inl he, hh⟩
    · exact ⟨e, Or.inr he, hh⟩

theorem lab_mapEdge (f : Nat → Nat) (e : Edge) : lab (mapEdge f e) = lab e := rfl

theorem filter_label_comm {g : Edge → Edge} (hg : ∀ e, lab (g e) = lab e)
    (Y : Finset Nat) (E : List Edge) :
    (E.map g).filter (fun e => decide (lab e ∈ Y)) =
      (E.filter (fun e => decide (lab e ∈ Y))).map g := by
  induction E with
  | nil => rfl
  | cons e t ih =>
    simp only [List.map_cons, List.filter_cons, hg]
    by_cases h : decide (lab e ∈ Y) = true
    · rw [if_pos h, if_pos h, ih, List.map_cons]
    · rw [if_neg h, if_neg h, ih]

/-- The rank function of a constructor-built matroid on a connected input
with distinct labels, reduced to the input edge list. -/
theorem rankOf_construct {E : List Edge} (hc : Conn E) (hnd : (E.map lab).Nodup)
    (Y : Finset Nat) :
    rankOf (construct E) Y = rankE (E.filter (fun e => decide (lab e ∈ Y))) := by
  rw [rankOf, edgesOf, construct_edges_of_conn hc hnd]
  have h1 : ∀ e, e ∈ (sortEdges (E.map normEdge)).filter (fun e => decide (lab e ∈ Y)) ↔
      e ∈ (E.map normEdge).filter (fun e => decide (lab e ∈ Y)) := by
    intro e
    simp only [List.mem_filter, mem_sortEdges]
  rw [rankE_eq_of_mem_iff h1, filter_label_comm lab_normEdge, rankE_normEdge]

/-- The ground set of a constructor-built matroid on a connected input with
distinct labels is the set of input labels. -/
theorem groundsetF_construct {E : List Edge} (hc : Conn E) (hnd : (E.map lab).Nodup) :
    groundsetF (construct E) = (E.map lab).toFinset := by
  rw [groundsetF, construct_edges_of_conn hc hnd]
  exact List.toFinset_eq_of_perm _ _ (sortNorm_labels_perm E)

theorem conn_append_edge {E : List Edge} {u v x : Nat} (hc : Conn E)
    (hu : u ∈ vertsD E) (hv : v ∈ vertsD E) : Conn (E ++ [(u, v, x)]) := by
  intro w1 h1 w2 h2
  have hmem : ∀ w, w ∈ vertsD (E ++ [(u, v, x)]) → w ∈ vertsD E := by
    intro w hw
    rcases mem_vertsD_append.1 hw with h | h
    · exact h
    · obtain ⟨e, he, hh⟩ := mem_vertsD.1 h
      rcases List.mem_singleton.1 he with rfl
      rcases hh with rfl | rfl
      · exact hu
      · exact hv
  exact reach_mono (fun e he => List.mem_append.2 (Or.inl he))
    (hc w1 (hmem w1 h1) w2 (hmem w2 h2))

theorem mem_vertsD_of_mem_filter {E : List Edge} {p : Edge → Bool} {w : Nat}
    (h : w ∈ vertsD (E.filter p)) : w ∈ vertsD E := by
  obtain ⟨e, he, hh⟩ := mem_vertsD.1 h
  exact mem_vertsD.2 ⟨e, (List.mem_filter.1 he).1, hh⟩

theorem sep2_filter {C X : List Edge} {a b : Nat} {p q : Edge → Bool}
    (h : Sep2 C X a b) : Sep2 (C.filter p) (X.filter q) a b :=
  fun w h1 h2 => h w (mem_vertsD_of_mem_filter h1) (mem_vertsD_of_mem_filter h2)

theorem mem_vertsD_swap {X : List Edge} {a b w : Nat}
    (ha : a ∈ vertsD X) (hb : b ∈ vertsD X) :
    w ∈ vertsD (X.map (mapEdge (swapV a b))) ↔ w ∈ vertsD X := by
  constructor
  · intro h
    obtain ⟨v, hv, hw⟩ := mem_vertsD_map.1 h
    by_cases hva : v = a
    · have hs : swapV a b v = b := by unfold swapV; split_ifs <;> omega
      rw [← hw, hs]; exact hb
    by_cases hvb : v = b
    · have hs : swapV a b v = a := by unfold swapV; split_ifs <;> omega
      rw [← hw, hs]; exact ha
    · have hs : swapV a b v = v := by unfold swapV; split_ifs <;> omega
      rw [← hw, hs]; exact hv
  · intro h
    refine mem_vertsD_map.2 ⟨swapV a b w, ?_, swapV_invol a b w⟩
    by_cases hwa : w = a
    · have hs : swapV a b w = b := by unfold swapV; split_ifs <;> omega
      rw [hs]; exact hb
    by_cases hwb : w = b
    · have hs : swapV a b w = a := by unfold swapV; split_ifs <;> omega
      rw [hs]; exact ha
    · have hs : swapV a b w = w := by unfold swapV; split_ifs <;> omega
      rw [hs]; exact h

/-- List-level core of the twist: rebuilding through the constructor after
swapping the two shared vertices on the `X` side leaves every label-filtered
rank unchanged. -/
theorem twist_construct_rank {C Xl E : List Edge} {a b : Nat}
    (hperm : List.Perm (C ++ Xl) E)
    (hconn : Conn E) (hnd : (E.map lab).Nodup) (hab : a ≠ b)
    (haX : a ∈ vertsD Xl) (haC : a ∈ vertsD C)
    (hbX : b ∈ vertsD Xl) (hbC : b ∈ vertsD C)
    (hsep : Sep2 C Xl a b) (Y : Finset Nat) :
    rankOf (construct (C ++ Xl.map (mapEdge (swapV a b)))) Y =
      rankE (E.filter (fun e => decide (lab e ∈ Y))) := by
  have hmemCX : ∀ e, e ∈ C ++ Xl ↔ e ∈ E := fun e => hperm.mem_iff
  have hconn1 : Conn (C ++ Xl) := (conn_of_mem_iff hmemCX).2 hconn
  have hv : ∀ w, w ∈ vertsD (C ++ Xl.map (mapEdge (swapV a b))) ↔
      w ∈ vertsD (C ++ Xl) := by
    intro w
    rw [mem_vertsD_append, mem_vertsD_append, mem_vertsD_swap haX hbX]
  have hrank : rankE (C ++ Xl.map (mapEdge (swapV a b))) = rankE (C ++ Xl) :=
    rank_twist_core hab hsep
  have hlen : (vertsD (C ++ Xl.map (mapEdge (swapV a b)))).length =
      (vertsD (C ++ Xl)).length := by
    rw [← List.toFinset_card_of_nodup (vertsD_nodup _),
      ← List.toFinset_card_of_nodup (vertsD_nodup _), vertsD_toFinset_eq_of_viff hv]
  have hconnL : Conn (C ++ Xl.map (mapEdge (swapV a b))) := by
    rw [conn_iff_ncomp, ncomp_eq_sub, hrank, hlen, ← ncomp_eq_sub, ← conn_iff_ncomp]
    exact hconn1
  have hlabL : (C ++ Xl.map (mapEdge (swapV a b))).map lab = (C ++ Xl).map lab := by
    rw [List.map_append, List.map_append, List.map_map]
    rfl
  have hndL : ((C ++ Xl.map (mapEdge (swapV a b))).map lab).Nodup := by
    rw [hlabL]
    exact ((hperm.map lab).nodup_iff).2 hnd
  rw [rankOf_construct hconnL hndL Y, List.filter_append,
    filter_label_comm (lab_mapEdge (swapV a b)) Y Xl,
    rank_twist_core hab (sep2_filter hsep)]
  refine rankE_eq_of_mem_iff (fun e => ?_)
  simp only [List.mem_append, List.mem_filter]
  rw [← hmemCX e, List.mem_append]
  tauto

/-- C2: whenever `twist(X)` succeeds on a connected graphic matroid with
distinct labels, the result has the same rank function: every subset of the
ground set gets the same rank. -/
theorem C2_twist_preserves_rank (M : GM) (X : Finset Nat) (T : GM)
    (hconn : Conn M.edges) (hnd : (M.edges.map lab).Nodup)
    (hT : twistM M X = some T) :
    ∀ Y : Finset Nat, rankOf T Y = rankOf M Y := by
  simp only [twistM] at hT
  split_ifs at hT with h1 h2 h3
  · injection hT with hTT
    subst hTT
    intro Y
    rcases hsl : (vertsD (edgesOf M X)).filter
        (fun w => (vertsD (M.edges.filter (fun e => decide (lab e ∉ X)))).contains w)
      with _ | ⟨a0, _ | ⟨a1, _ | ⟨c, r⟩⟩⟩
    · rw [hsl] at h3; simp at h3
    · rw [hsl] at h3; simp at h3
    · simp only [List.headD_cons, List.drop_succ_cons, List.drop_zero]
      have hnodup : ([a0, a1] : List Nat).Nodup := by
        rw [← hsl]
        exact (vertsD_nodup (edgesOf M X)).filter _
      have hab : a0 ≠ a1 := by
        rw [List.nodup_cons] at hnodup
        intro h
        exact hnodup.1 (h ▸ List.mem_singleton_self a1)
      have ha0 : a0 ∈ (vertsD (edgesOf M X)).filter
          (fun w => (vertsD (M.edges.filter (fun e => decide (lab e ∉ X)))).contains w) := by
        rw [hsl]; simp
      have ha1 : a1 ∈ (vertsD (edgesOf M X)).filter
          (fun w => (vertsD (M.edges.filter (fun e => decide (lab e ∉ X)))).contains w) := by
        rw [hsl]; simp
      have haX : a0 ∈ vertsD (edgesOf M X) := (List.mem_filter.1 ha0).1
      have haC : a0 ∈ vertsD (M.edges.filter (fun e => decide (lab e ∉ X))) := by
        have := (List.mem_filter.1 ha0).2
        simpa using this
      have hbX : a1 ∈ vertsD (edgesOf M X) := (List.mem_filter.1 ha1).1
      have hbC : a1 ∈ vertsD (M.edges.filter (fun e => decide (lab e ∉ X))) := by
        have := (List.mem_filter.1 ha1).2
        simpa using this
      have hsep : Sep2 (M.edges.filter (fun e => decide (lab e ∉ X)))
          (edgesOf M X) a0 a1 := by
        intro w hw1 hw2
        have hw : w ∈ (vertsD (edgesOf M X)).filter
            (fun w => (vertsD (M.edges.filter (fun e => decide (lab e ∉ X)))).contains w) :=
          List.mem_filter.2 ⟨hw2, by simpa using hw1⟩
        rw [hsl] at hw
        simpa using hw
      have hperm : List.Perm
          (M.edges.filter (fun e => decide (lab e ∉ X)) ++ edgesOf M X) M.edges := by
        have h := List.filter_append_perm (fun e => decide (lab e ∉ X)) M.edges
        have hxe2 : M.edges.filter (fun e => !decide (lab e ∉ X)) = edgesOf M X := by
          apply List.filter_congr
          intro e he
          simp [decide_not]
        rwa [hxe2] at h
      exact twist_construct_rank hperm hconn hnd hab haX haC hbX hbC hsep Y
    · rw [hsl] at h3; simp at h3

/-! ## Concrete instances used by the claims -/

/-- A single-edge matroid (one bridge `0—1`). -/
def mPath : GM := ⟨[(0, 1, 0)]⟩

/-- The docstring example of `twist`. -/
def mTwist : GM := ⟨[(0,1,0), (1,2,1), (1,2,2), (2,3,3), (2,3,4), (2,3,5), (3,0,6)]⟩

/-- The twist of `mTwist` at `{0, 1, 2}`, as the docstring lists it. -/
def mTwistRes : GM := ⟨[(0,1,1), (0,1,2), (0,3,6), (1,2,0), (2,3,3), (2,3,4), (2,3,5)]⟩

/-- The constructor applied to a graph whose components are one edge and two
single-vertex loops. -/
def mBug : GM := construct [(0,1,0), (2,2,1), (3,3,2)]

/-- A graph with a loop labeled 5 at vertex 0 and a bridge labeled 7. -/
def mLoop : GM := ⟨[(0,0,5), (0,1,7)]⟩

/-! ## The claims -/

/-- C1 (amended): a graphic extension whose endpoints already are vertices of
the (connected, duplicate-free) graph never creates a coloop; with `v`
omitted the loop case is covered by `v.getD u = u`.  The original claim fails
for a fresh endpoint, see the counterexample. -/
theorem C1_extension_no_coloop (M : GM) (u : Nat) (v : Option Nat) (x : Nat) (T : GM)
    (hconn : Conn M.edges) (hnd : (M.edges.map lab).Nodup)
    (hu : u ∈ vertsD M.edges) (hv : v.getD u ∈ vertsD M.edges)
    (hT : graphicExtension M u v x = some T) :
    isColoopB T x = false := by
  simp only [graphicExtension] at hT
  split_ifs at hT with hx
  injection hT with hTT
  subst hTT
  have hxlab : x ∉ M.edges.map lab := fun hmem => hx (List.mem_toFinset.2 hmem)
  have hconn' : Conn (M.edges ++ [(u, v.getD u, x)]) := conn_append_edge hconn hu hv
  have hnd' : ((M.edges ++ [(u, v.getD u, x)]).map lab).Nodup := by
    rw [List.map_append]
    refine hnd.append (List.nodup_singleton x) ?_
    intro l hl1 hl2
    rw [show List.map lab [(u, v.getD u, x)] = [x] from rfl] at hl2
    exact hxlab (List.mem_singleton.1 hl2 ▸ hl1)
  have hgs : groundsetF (construct (M.edges ++ [(u, v.getD u, x)])) =
      ((M.edges ++ [(u, v.getD u, x)]).map lab).toFinset :=
    groundsetF_construct hconn' hnd'
  have hall : (M.edges ++ [(u, v.getD u, x)]).filter
      (fun e => decide (lab e ∈ ((M.edges ++ [(u, v.getD u, x)]).map lab).toFinset)) =
      M.edges ++ [(u, v.getD u, x)] := by
    rw [List.filter_eq_self]
    intro e he
    simp only [decide_eq_true_eq, List.mem_toFinset]
    exact List.mem_map.2 ⟨e, he, rfl⟩
  have hminus : (M.edges ++ [(u, v.getD u, x)]).filter
      (fun e => decide (lab e ∈
        (((M.edges ++ [(u, v.getD u, x)]).map lab).toFinset \ {x}))) = M.edges := by
    rw [List.filter_append]
    have h1 : M.edges.filter (fun e => decide (lab e ∈
        (((M.edges ++ [(u, v.getD u, x)]).map lab).toFinset \ {x}))) = M.edges := by
      rw [List.filter_eq_self]
      intro e he
      simp only [decide_eq_true_eq, Finset.mem_sdiff, List.mem_toFinset,
        Finset.mem_singleton]
      refine ⟨List.mem_map.2 ⟨e, List.mem_append.2 (Or.inl he), rfl⟩, ?_⟩
      intro hlx
      exact hxlab (hlx ▸ List.mem_map.2 ⟨e, he, rfl⟩)
    have h2 : List.filter (fun e => decide (lab e ∈
        (((M.edges ++ [(u, v.getD u, x)]).map lab).toFinset \ {x}))) [(u, v.getD u, x)]
        = [] := by
      simp [lab]
    rw [h1, h2, List.append_nil]
  have hrE : rankE (M.edges ++ [(u, v.getD u, x)]) = rankE M.edges := by
    have hre : Reach M.edges (fstV (u, v.getD u, x)) (sndV (u, v.getD u, x)) :=
      hconn u hu (v.getD u) hv
    rw [rankE_append, if_pos hre]
    omega
  simp only [isColoopB]
  rw [hgs, rankOf_construct hconn' hnd', rankOf_construct hconn' hnd', hall, hminus, hrE]
  simp

/-- Witness for C1 at a concrete input: a parallel extension of the one-edge
graph is not a coloop. -/
theorem C1_extension_no_coloop_check :
    isColoopB (construct [(0,1,0), (0,1,5)]) 5 = false :=
  C1_extension_no_coloop mPath 0 (some 1) 5 (construct [(0,1,0), (0,1,5)])
    (by decide) (by decide) (by decide) (by decide) (by decide)

/-- Counterexample to C1 as stated: extending at a fresh vertex (here `2`)
creates a pendant edge, which is a coloop. -/
theorem C1_fresh_vertex_coloop :
    (graphicExtension mPath 0 (some 2) 1).map (fun T => isColoopB T 1) = some true := by
  decide

/-- C3: the constructor does not always force a connected graph: on input
`[(0,1,0), (2,2,1), (3,3,2)]` (one edge plus two loop-only components) the
rebuilt graph is disconnected and `rank(groundset) = 1 ≠ |V| − 1 = 2`,
contradicting the documented invariant. -/
theorem C3_constructor_disconnected :
    (¬ Conn mBug.edges) ∧ rankOf mBug (groundsetF mBug) = 1 ∧
      (vertsD mBug.edges).length = 3 := by
  decide

/-- C4 (amended): `rank(X) ≤ |X|` and `rank(∅) = 0` hold for every graphic
matroid with duplicate-free labels — connected or not — and
`rank(groundset) = |V| − 1` holds whenever the graph is connected (the
constructor bug of C3 breaks only that last equation). -/
theorem C4_rank_bounds (M : GM) (X : Finset Nat)
    (hnd : (M.edges.map lab).Nodup) :
    rankOf M X ≤ X.card ∧ rankOf M ∅ = 0 ∧
      (Conn M.edges → rankOf M (groundsetF M) = (vertsD M.edges).length - 1) := by
  refine ⟨?_, ?_, fun hconn => ?_⟩
  · have h1 : ((edgesOf M X).map lab).Nodup :=
      hnd.sublist ((List.filter_sublist M.edges).map lab)
    have h2 : ((edgesOf M X).map lab).toFinset ⊆ X := by
      intro l hl
      simp only [List.mem_toFinset, List.mem_map] at hl
      obtain ⟨e, he, rfl⟩ := hl
      have := (List.mem_filter.1 he).2
      simpa using this
    calc rankOf M X ≤ (edgesOf M X).length := rankE_le_length _
    _ = ((edgesOf M X).map lab).length := (List.length_map _ _).symm
    _ = ((edgesOf M X).map lab).toFinset.card := (List.toFinset_card_of_nodup h1).symm
    _ ≤ X.card := Finset.card_le_card h2
  · have h0 : edgesOf M ∅ = [] := by simp [edgesOf]
    rw [rankOf, h0, rankE_nil]
  · have hall : edgesOf M (groundsetF M) = M.edges := by
      rw [edgesOf, List.filter_eq_self]
      intro e he
      simp only [decide_eq_true_eq, groundsetF, List.mem_toFinset]
      exact List.mem_map.2 ⟨e, he, rfl⟩
    rw [rankOf, hall, rankE_of_conn hconn]

/-- Witness for C4 at the docstring graph with `X = {0, 1}`. -/
theorem C4_rank_bounds_check :
    rankOf mTwist {0, 1} ≤ ({0, 1} : Finset Nat).card ∧ rankOf mTwist ∅ = 0 ∧
      (Conn mTwist.edges →
        rankOf mTwist (groundsetF mTwist) = (vertsD mTwist.edges).length - 1) :=
  C4_rank_bounds mTwist {0, 1} (by decide)

/-- Counterexample to C4 as stated: on the disconnected constructor output of
C3 the rank of the ground set is 1, not `|V| − 1 = 2`. -/
theorem C4_disconnected_rank :
    rankOf mBug (groundsetF mBug) = 1 ∧ (vertsD mBug.edges).length - 1 = 2 := by
  decide

/-- C5: `circuit(X)` raises the no-circuit error exactly when the subgraph on
`X` is a forest, i.e. exactly when `X` is independent; on a dependent set it
returns a set of labels. -/
theorem C5_circuit_error_iff_independent (M : GM) (X : Finset Nat) :
    (circuitOf M X = none ↔ isIndependentM M X = true) ∧
    (isIndependentM M X = false → (circuitOf M X).isSome = true) := by
  constructor
  · simp only [circuitOf, isIndependentM]
    by_cases h : isForestB (edgesOf M X) = true
    · simp [h]
    · simp [h]
  · intro h
    simp only [isIndependentM] at h
    simp only [circuitOf]
    rw [if_neg (by simp [h])]
    rfl

theorem contains_iff {l : List Nat} {a : Nat} : l.contains a = true ↔ a ∈ l := by
  simp

theorem not_and_bool_iff {b1 b2 : Bool} {P1 P2 : Prop}
    (h1 : b1 = true ↔ P1) (h2 : b2 = true ↔ P2) :
    (!(b1 && b2)) = true ↔ ¬(P1 ∧ P2) := by
  cases b1 <;> cases b2 <;> simp_all

theorem filter_single_label {E : List Edge} (hnd : (E.map lab).Nodup)
    {e : Edge} (he : e ∈ E) :
    E.filter (fun f => decide (lab f ∈ ({lab e} : Finset Nat))) = [e] := by
  induction E with
  | nil => cases he
  | cons g t ih =>
    rw [List.map_cons, List.nodup_cons] at hnd
    rcases List.mem_cons.1 he with rfl | he'
    · rw [List.filter_cons_of_pos (by simp)]
      have hnil : t.filter (fun f => decide (lab f ∈ ({lab e} : Finset Nat))) = [] := by
        refine List.filter_eq_nil_iff.2 (fun f hf => ?_)
        simp only [decide_eq_true_eq, Finset.mem_singleton]
        intro hfl
        exact hnd.1 (hfl ▸ List.mem_map.2 ⟨f, hf, rfl⟩)
      rw [hnil]
    · have hgl : ¬(lab g = lab e) := fun hgl =>
        hnd.1 (hgl ▸ List.mem_map.2 ⟨e, he', rfl⟩)
      rw [List.filter_cons_of_neg (by simpa using hgl)]
      exact ih hnd.2 he'

theorem vertsD_loop (u L : Nat) : vertsD [(u, u, L)] = [u] := by
  show ([u] ++ [u]).dedup = [u]
  rw [List.singleton_append, List.dedup_cons_of_mem (by simp)]
  rfl

theorem ncomp_loop (u L : Nat) : ncomp [(u, u, L)] = 1 := by
  rw [ncomp_eq_card, vertsD_loop]
  simp

theorem rankE_loop (u L : Nat) : rankE [(u, u, L)] = 0 := by
  rw [rankE, vertsD_loop, ncomp_loop]
  simp

/-- C6: a loop labeled `L` is never independent, and `L` lies in the closure
of every set (including the empty set): `_closure` adds every loop label
unconditionally at its final step. -/
theorem C6_loop_dependent_in_closure (M : GM) (u L : Nat)
    (hloop : (u, u, L) ∈ M.edges) (hnd : (M.edges.map lab).Nodup) :
    isIndependentM M {L} = false ∧ ∀ X : Finset Nat, L ∈ closureOf M X := by
  constructor
  · have hf : edgesOf M {L} = [(u, u, L)] := filter_single_label hnd hloop
    simp only [isIndependentM]
    rw [hf]
    simp [isForestB, rankE_loop]
  · intro X
    simp only [closureOf]
    refine Finset.mem_union_right _ ?_
    rw [List.mem_toFinset]
    refine List.mem_map.2 ⟨(u, u, L), ?_, rfl⟩
    exact List.mem_filter.2 ⟨hloop, by simp [fstV, sndV]⟩

/-- Witness for C6: the loop labeled 5 of `mLoop`. -/
theorem C6_loop_dependent_in_closure_check :
    isIndependentM mLoop {5} = false ∧ ∀ X : Finset Nat, 5 ∈ closureOf mLoop X :=
  C6_loop_dependent_in_closure mLoop 0 5 (by decide) (by decide)

/-- C7: `_is_closed(X)` holds exactly when every loop label is in `X` and,
with `Xp` the loop-free part of `X`, no edge whose label is outside `Xp` has
both endpoints among the vertices spanned by `Xp`'s edges. -/
theorem C7_isClosed_iff (M : GM) (X : Finset Nat) :
    isClosedB M X = true ↔
      ((∀ l ∈ loopLabels M, l ∈ X) ∧
        ∀ e ∈ M.edges, lab e ∈ groundsetF M \ (X \ (loopLabels M).toFinset) →
          ¬(fstV e ∈ vertsD (edgesOf M (X \ (loopLabels M).toFinset)) ∧
            sndV e ∈ vertsD (edgesOf M (X \ (loopLabels M).toFinset)))) := by
  simp only [isClosedB]
  by_cases h1 : (loopLabels M).all (fun l => decide (l ∈ X)) = true
  · rw [if_pos h1]
    have h1' : ∀ l ∈ loopLabels M, l ∈ X := by
      intro l hl
      have := List.all_eq_true.1 h1 l hl
      simpa using this
    rw [List.all_eq_true]
    constructor
    · intro hB
      refine ⟨h1', ?_⟩
      intro e he hlab
      have heB := hB e (List.mem_filter.2 ⟨he, by
        simp only [decide_eq_true_eq]
        exact hlab⟩)
      exact (not_and_bool_iff contains_iff contains_iff).1 heB
    · rintro ⟨-, hedge⟩
      intro e hef
      obtain ⟨he, hl⟩ := List.mem_filter.1 hef
      exact (not_and_bool_iff contains_iff contains_iff).2
        (hedge e he (by simpa only [decide_eq_true_eq] using hl))
  · rw [if_neg h1]
    constructor
    · intro h
      cases h
    · rintro ⟨hl, -⟩
      exact absurd (List.all_eq_true.2 (fun l hlm => by simpa using hl l hlm)) h1

theorem mem_vStar {E : List Edge} {v l : Nat} :
    l ∈ vStar E v ↔ ∃ e ∈ E, (fstV e = v ∨ sndV e = v) ∧ lab e = l := by
  simp only [vStar, List.mem_toFinset, List.mem_map, List.mem_filter]
  constructor
  · rintro ⟨e, ⟨he, hp⟩, rfl⟩
    exact ⟨e, he, by simpa using hp, rfl⟩
  · rintro ⟨e, he, hp, rfl⟩
    exact ⟨e, ⟨he, by simpa using hp⟩, rfl⟩

theorem vStar_eq_of_mem_iff {E E' : List Edge} (h : ∀ e, e ∈ E ↔ e ∈ E') (v : Nat) :
    vStar E v = vStar E' v := by
  ext l
  rw [mem_vStar, mem_vStar]
  constructor <;> rintro ⟨e, he, hp, rfl⟩
  · exact ⟨e, (h e).1 he, hp, rfl⟩
  · exact ⟨e, (h e).2 he, hp, rfl⟩

theorem vStar_normEdge (E : List Edge) (v : Nat) :
    vStar (E.map normEdge) v = vStar E v := by
  ext l
  rw [mem_vStar, mem_vStar]
  constructor
  · rintro ⟨e', he', hp, rfl⟩
    obtain ⟨e, he, rfl⟩ := List.mem_map.1 he'
    refine ⟨e, he, ?_, (lab_normEdge e).symm⟩
    rcases normEdge_endpoints e with ⟨ha, hb⟩ | ⟨ha, hb⟩ <;> rcases hp with hp | hp
    · exact Or.inl (ha.symm.trans hp)
    · exact Or.inr (hb.symm.trans hp)
    · exact Or.inr (ha.symm.trans hp)
    · exact Or.inl (hb.symm.trans hp)
  · rintro ⟨e, he, hp, rfl⟩
    refine ⟨normEdge e, List.mem_map.2 ⟨e, he, rfl⟩, ?_, lab_normEdge e⟩
    rcases normEdge_endpoints e with ⟨ha, hb⟩ | ⟨ha, hb⟩ <;> rcases hp with hp | hp
    · exact Or.inl (ha.trans hp)
    · exact Or.inr (hb.trans hp)
    · exact Or.inr (hb.trans hp)
    · exact Or.inl (ha.trans hp)

def starSetL (E : List Edge) : Finset (Finset Nat) :=
  ((vertsD E).map (vStar E)).toFinset

theorem starSet_eq (M : GM) : starSet M = starSetL M.edges := rfl

theorem mem_starSetL {E : List Edge} {s : Finset Nat} :
    s ∈ starSetL E ↔ ∃ v ∈ vertsD E, vStar E v = s := by
  simp [starSetL]

theorem starSetL_congr {E E' : List Edge}
    (hv : ∀ w, w ∈ vertsD E ↔ w ∈ vertsD E')
    (hs : ∀ v, vStar E v = vStar E' v) :
    starSetL E = starSetL E' := by
  ext s
  rw [mem_starSetL, mem_starSetL]
  constructor <;> rintro ⟨v, hvm, rfl⟩
  · exact ⟨v, (hv v).1 hvm, (hs v).symm⟩
  · exact ⟨v, (hv v).2 hvm, hs v⟩

/-- C8: spec-modelled `equals` (exact structural equality of the labeled
graphs) implies equal vertex-star hashes; and the converse fails: two unequal
one-edge graphs share the same star set. -/
theorem C8_equals_implies_equal_hash :
    (∀ M N : GM, graphEqB M N = true → starSet M = starSet N) ∧
      (starSet ⟨[(0, 1, 5)]⟩ = starSet ⟨[(1, 2, 5)]⟩ ∧
        graphEqB ⟨[(0, 1, 5)]⟩ ⟨[(1, 2, 5)]⟩ = false) := by
  refine ⟨?_, by decide, by decide⟩
  intro M N h
  have hEq : sortEdges (M.edges.map normEdge) = sortEdges (N.edges.map normEdge) := by
    simpa [graphEqB] using h
  have hmem : ∀ e, e ∈ M.edges.map normEdge ↔ e ∈ N.edges.map normEdge := by
    intro e
    rw [← mem_sortEdges, hEq, mem_sortEdges]
  rw [starSet_eq, starSet_eq]
  have h1 : starSetL M.edges = starSetL (M.edges.map normEdge) :=
    starSetL_congr (fun w => mem_vertsD_normEdge.symm)
      (fun v => (vStar_normEdge _ v).symm)
  have h2 : starSetL N.edges = starSetL (N.edges.map normEdge) :=
    starSetL_congr (fun w => mem_vertsD_normEdge.symm)
      (fun v => (vStar_normEdge _ v).symm)
  have h3 : starSetL (M.edges.map normEdge) = starSetL (N.edges.map normEdge) :=
    starSetL_congr (fun w => mem_vertsD_iff_of_mem_iff hmem)
      (fun v => vStar_eq_of_mem_iff hmem v)
  rw [h1, h3, ← h2]

instance : IsAntisymm Edge (fun e f => edgeLE e f = true) :=
  ⟨fun _ _ h1 h2 => edgeLE_antisymm h1 h2⟩

theorem sortEdges_eq_of_perm {A B : List Edge} (h : List.Perm A B) :
    sortEdges A = sortEdges B :=
  List.eq_of_perm_of_sorted ((sortEdges_perm A).trans (h.trans (sortEdges_perm B).symm))
    (sorted_sortEdges A) (sorted_sortEdges B)

theorem graphEqB_iff {M N : GM} :
    graphEqB M N = true ↔
      Multiset.ofList (M.edges.map normEdge) = Multiset.ofList (N.edges.map normEdge) := by
  rw [graphEqB, beq_iff_eq]
  constructor
  · intro h
    have h2 : List.Perm (sortEdges (M.edges.map normEdge)) (N.edges.map normEdge) := by
      rw [h]
      exact sortEdges_perm _
    exact Multiset.coe_eq_coe.2 ((sortEdges_perm _).symm.trans h2)
  · intro h
    exact sortEdges_eq_of_perm (Multiset.coe_eq_coe.1 h)

/-- C10: equality comparison returns `False` against anything that is not a
`GraphicMatroid` (and `!=` returns `True`), even for an object carrying the
identical labeled graph; between two graphic matroids it holds exactly when
the labeled multigraphs (normalized edge multisets, hence vertex sets and
labels) coincide. -/
theorem C10_eq_requires_type (M N : GM) (E : List Edge) :
    pyEq M (PyObj.nonGM E) = false ∧ pyNe M (PyObj.nonGM E) = true ∧
      (pyEq M (PyObj.gm N) = true ↔
        Multiset.ofList (M.edges.map normEdge) = Multiset.ofList (N.edges.map normEdge)) :=
  ⟨rfl, rfl, graphEqB_iff⟩

/-- Witness for C2 at the docstring example: the twist at `{0, 1, 2}` yields
the listed graph, whose rank at `{0, 3, 6}` matches the original. -/
theorem C2_twist_preserves_rank_check :
    rankOf mTwistRes {0, 3, 6} = rankOf mTwist {0, 3, 6} :=
  C2_twist_preserves_rank mTwist {0, 1, 2} mTwistRes (by decide) (by decide)
    (by decide) {0, 3, 6}
